import Mathlib

/-!
# Verification of the katamap crawler core

Shallow embedding of the katamap site crawler (`src/crawler.js`, the fetcher,
the HTTP cache and the sitemap parser) together with proofs about the
embedded definitions.

URLs are modeled structurally over a well-behaved fragment of the WHATWG URL
grammar actually exercised by the crawler: `scheme://host[:port]path[?query][#frag]`
with `scheme ∈ {http, https}`, ASCII lowercase hosts, ports without leading
zeros (default ports elided by the parser, as the platform's `URL` class does),
and path/query characters that the platform would pass through unchanged
(no percent-encoding transformations happen on this fragment).  Inputs outside
the fragment fail to parse (`none`), mirroring how unparseable input is dropped
by the crawler.
-/

namespace Katamap

/-! ## Character classes of the modeled URL fragment -/

def isSchemeChar (c : Char) : Bool := c.isLower

def isHostChar (c : Char) : Bool :=
  c.isLower || c.isDigit || c == '.' || c == '-' || c == '_'

/-- Printable ASCII path characters that the WHATWG path serializer keeps
verbatim (we exclude the characters it percent-encodes or rewrites). -/
def isPathChar (c : Char) : Bool :=
  decide (33 ≤ c.toNat) && decide (c.toNat ≤ 126) &&
    !(c == '?' || c == '#' || c == '"' || c == '<' || c == '>' || c == '\\' ||
      c == '^' || c == Char.ofNat 96 || c == Char.ofNat 123 || c == Char.ofNat 125)

/-- Query characters that `URLSearchParams` serializes verbatim
(alphanumerics and `*-._`), plus the structural `&` and `=`. -/
def isQueryChar (c : Char) : Bool :=
  c.isAlphanum || c == '*' || c == '-' || c == '.' || c == '_' || c == '&' || c == '='

def isFragChar (c : Char) : Bool :=
  decide (33 ≤ c.toNat) && decide (c.toNat ≤ 126)

/-! ## Structured URLs, serialization and parsing

This models the platform `URL` class on the fragment described above:
`new URL(s)` is `parseUrl s.data`, `u.href` is `String.mk (render u)`.
The parser elides a port equal to the scheme's default, as WHATWG does. -/

structure Url where
  scheme : List Char
  host : List Char
  port : Option (List Char)
  path : List Char
  query : Option (List Char)
  frag : Option (List Char)
deriving DecidableEq, Repr

def defaultPort (scheme : List Char) : List Char :=
  if scheme = "https".data then "443".data else "80".data

def renderPort : Option (List Char) → List Char
  | none => []
  | some p => ':' :: p

def renderQuery : Option (List Char) → List Char
  | none => []
  | some q => '?' :: q

def renderFrag : Option (List Char) → List Char
  | none => []
  | some f => '#' :: f

/-- Serialization (`u.href`). -/
def render (u : Url) : List Char :=
  u.scheme ++ ':' :: '/' :: '/' :: u.host ++ renderPort u.port ++ u.path ++
    renderQuery u.query ++ renderFrag u.frag

/-- Query/fragment part of the parser, once scheme, host, port are known and
`rest` is what follows the authority. -/
def parseQF (scheme host : List Char) (port : Option (List Char)) (path : List Char)
    (rest : List Char) : Option Url :=
  match rest with
  | [] => some ⟨scheme, host, port, path, none, none⟩
  | '?' :: r2 =>
    let q := r2.takeWhile isQueryChar
    let r3 := r2.dropWhile isQueryChar
    match r3 with
    | [] => some ⟨scheme, host, port, path, some q, none⟩
    | '#' :: f =>
      if f.all isFragChar then some ⟨scheme, host, port, path, some q, some f⟩ else none
    | _ => none
  | '#' :: f =>
    if f.all isFragChar then some ⟨scheme, host, port, path, none, some f⟩ else none
  | _ => none

/-- Path part of the parser: an empty remainder means the root path `/`. -/
def parseTail (scheme host : List Char) (port : Option (List Char))
    (rest : List Char) : Option Url :=
  match rest with
  | [] => some ⟨scheme, host, port, ['/'], none, none⟩
  | '/' :: _ =>
    let path := rest.takeWhile isPathChar
    let r2 := rest.dropWhile isPathChar
    parseQF scheme host port path r2
  | '?' :: _ => parseQF scheme host port ['/'] rest
  | '#' :: _ => parseQF scheme host port ['/'] rest
  | _ => none

/-- Port part of the parser: an explicit port (digits, no leading zero) is
elided when it equals the scheme's default, as the WHATWG parser does. -/
def parsePort (scheme host : List Char) (r3 : List Char) : Option Url :=
  match r3 with
  | ':' :: r4 =>
    let portCs := r4.takeWhile Char.isDigit
    let r5 := r4.dropWhile Char.isDigit
    if portCs.isEmpty then none
    else if portCs.head? = some '0' then none
    else parseTail scheme host
      (if portCs = defaultPort scheme then none else some portCs) r5
  | _ => parseTail scheme host none r3

/-- Authority part of the parser (after `scheme://`). -/
def parseAuthority (scheme : List Char) (r2 : List Char) : Option Url :=
  let host := r2.takeWhile isHostChar
  let r3 := r2.dropWhile isHostChar
  if host.isEmpty then none else parsePort scheme host r3

/-- `new URL(s)` on the modeled fragment. -/
def parseUrl (cs : List Char) : Option Url :=
  let scheme := cs.takeWhile isSchemeChar
  let rest := cs.dropWhile isSchemeChar
  match rest with
  | ':' :: '/' :: '/' :: r2 =>
    if scheme = "http".data ∨ scheme = "https".data then parseAuthority scheme r2
    else none
  | _ => none

/-- Canonical (parser-producible) URLs. -/
def Url.wellFormed (u : Url) : Bool :=
  (u.scheme == "http".data || u.scheme == "https".data) &&
  !u.host.isEmpty && u.host.all isHostChar &&
  (match u.port with
   | none => true
   | some p =>
     !p.isEmpty && p.all Char.isDigit && !(p.head? == some '0') &&
       !(p == defaultPort u.scheme)) &&
  !u.path.isEmpty && u.path.head? == some '/' && u.path.all isPathChar &&
  (match u.query with | none => true | some q => q.all isQueryChar) &&
  (match u.frag with | none => true | some f => f.all isFragChar)

/-! ## Query parameters (`URLSearchParams` on the verbatim fragment)

On the query characters admitted by `isQueryChar`, `URLSearchParams` performs
no decoding or re-encoding, so parsing is: split on `&`, drop empty segments,
split each segment at the first `=` (missing `=` means empty value); and
serialization joins `key=value` pairs with `&`. -/

/-- Prepend a character to the first segment (used by `splitOnC`). -/
def consHead (c : Char) : List (List Char) → List (List Char)
  | [] => [[c]]
  | s :: ss => (c :: s) :: ss

/-- Split a character list on a separator, keeping empty segments
(JS `String.prototype.split` semantics). -/
def splitOnC (sep : Char) : List Char → List (List Char)
  | [] => [[]]
  | c :: rest =>
    if c = sep then [] :: splitOnC sep rest
    else consHead c (splitOnC sep rest)

/-- Join segments with a separator (inverse of `splitOnC` on separator-free
segments). -/
def joinC (sep : Char) : List (List Char) → List Char
  | [] => []
  | [s] => s
  | s :: ss => s ++ sep :: joinC sep ss

/-- Split one `key=value` segment at the first `=`. -/
def parsePair (seg : List Char) : List Char × List Char :=
  (seg.takeWhile (fun c => !(c == '=')), (seg.dropWhile (fun c => !(c == '='))).tail)

def parseParams (q : List Char) : List (List Char × List Char) :=
  ((splitOnC '&' q).filter (fun s => !s.isEmpty)).map parsePair

def paramsToString (l : List (List Char × List Char)) : List Char :=
  joinC '&' (l.map (fun kv => kv.1 ++ '=' :: kv.2))

/-- Byte-lexicographic comparison of character lists; models the
`localeCompare`-based key comparator of the source (any fixed total preorder
gives the same sorting structure). -/
def leChars : List Char → List Char → Bool
  | [], _ => true
  | _ :: _, [] => false
  | a :: as, b :: bs => if a = b then leChars as bs else decide (a < b)

def leKey (a b : List Char × List Char) : Bool := leChars a.1 b.1

/-- Insert after all already-placed elements that compare `≤`; this is the
insertion step of a stable sort (JS `Array.prototype.sort` is stable). -/
def insPair (x : List Char × List Char) :
    List (List Char × List Char) → List (List Char × List Char)
  | [] => [x]
  | y :: ys => if leKey y x then y :: insPair x ys else x :: y :: ys

/-- Stable sort by key. -/
def sortParams (l : List (List Char × List Char)) : List (List Char × List Char) :=
  l.foldl (fun acc x => insPair x acc) []

/-! ## URL normalization (`normalizeUrl` in `src/crawler.js`) -/

/-- Seed-derived preferences captured at startup in `crawler.js`. -/
structure NormCfg where
  preferHttps : Bool
  preferPort : Option (List Char)
  preserveQueryOrder : Bool
deriving DecidableEq, Repr

/-- The preferred port, when present, is a canonical port string as produced by
the platform URL parser for the first seed. -/
def NormCfg.wellFormed (cfg : NormCfg) : Bool :=
  match cfg.preferPort with
  | none => true
  | some p => !p.isEmpty && p.all Char.isDigit && !(p.head? == some '0')

/-- `u.protocol = "https:"`: the WHATWG protocol setter nulls the port when it
equals the new scheme's default. -/
def upgradeHttps (u : Url) : Url :=
  { u with scheme := "https".data,
           port := if u.port = some ("443".data) then none else u.port }

/-- `u.port = preferPort`: the WHATWG port setter elides the scheme default. -/
def setPreferPort (p : List Char) (u : Url) : Url :=
  { u with port := if p = defaultPort u.scheme then none else some p }

/-- `u.search` is non-empty. -/
def searchNonempty (u : Url) : Bool :=
  match u.query with
  | some q => !q.isEmpty
  | none => false

/-- Sort query parameters alphabetically by key and write the result back to
`u.search` (an empty serialization removes the query, as assigning `""` to
`search` does). -/
def sortQueryStep (u : Url) : Url :=
  match u.query with
  | none => u
  | some q =>
    let s := paramsToString (sortParams (parseParams q))
    { u with query := if s.isEmpty then none else some s }

/-- `u.pathname = u.pathname.slice(0, -1)` guarded by the source's condition:
removes exactly one trailing slash unless the path is just `/`. -/
def dropTrailingSlash (u : Url) : Url :=
  if u.path ≠ ['/'] ∧ u.path.getLast? = some '/' then
    { u with path := u.path.dropLast }
  else u

/-- `if (preferHttps && u.protocol === "http:")` upgrade. -/
def schemeStep (cfg : NormCfg) (u : Url) : Url :=
  if cfg.preferHttps && u.scheme == "http".data then upgradeHttps u else u

/-- `if (preferPort && !u.port)` port injection. -/
def portStep (cfg : NormCfg) (u : Url) : Url :=
  match cfg.preferPort with
  | some p => if u.port = none then setPreferPort p u else u
  | none => u

/-- `if (!preserveQueryOrder && u.search)` query sorting. -/
def queryStep (cfg : NormCfg) (u : Url) : Url :=
  if !cfg.preserveQueryOrder && searchNonempty u then sortQueryStep u else u

/-- The normalization pipeline of `normalizeUrl`, on parsed URLs, in source
order: https upgrade, preferred-port injection, query sorting, trailing-slash
removal, fragment removal. -/
def transform (cfg : NormCfg) (u : Url) : Url :=
  { dropTrailingSlash (queryStep cfg (portStep cfg (schemeStep cfg u))) with
    frag := none }

/-- `normalizeUrl` from `src/crawler.js`: parse, transform, re-serialize;
`none` models the `catch` returning `null`. -/
def normalizeUrl (cfg : NormCfg) (s : String) : Option String :=
  (parseUrl s.data).map fun u => String.mk (render (transform cfg u))

/-- Paths on which a second trailing-slash removal cannot fire: idempotence of
normalization holds exactly when the parsed path does not end in two slashes
(beyond the bare `//` root). -/
def slashSafe (p : List Char) : Bool :=
  if p.getLast? = some '/' then
    if p.dropLast.getLast? = some '/' then decide (p.dropLast = ['/'])
    else true
  else true

/-- JS `String.prototype.startsWith` on character lists. -/
def startsWithChars : List Char → List Char → Bool
  | _, [] => true
  | [], _ :: _ => false
  | c :: cs, p :: ps => c = p && startsWithChars cs ps

def startsWithStr (s p : String) : Bool := startsWithChars s.data p.data

/-! ## The HTTP response cache (`HttpCache` with bodies support)

The filesystem is a map from `(directory, fileName)` to a file state.  A cache
file either holds valid JSON of a cache record (what `set` writes), raw text
(what body writes produce), is unreadable (I/O error on read), is corrupt
(JSON parse error), or is absent.  `hash` abstracts `hashUrl` (SHA-256 hex);
`ts` abstracts `new Date().toISOString()`; the `writeOk` flags abstract whether
`writeFileSync` succeeds (failures are logged and ignored by the source). -/

structure CacheRecord where
  url : String
  timestamp : String
  status : Nat
  contentType : String
  body : String
deriving DecidableEq, Repr

structure RespData where
  status : Nat
  contentType : String
  body : String
deriving DecidableEq, Repr

inductive FileState where
  | absent
  | unreadable
  | corrupt (raw : String)
  | jsonFile (r : CacheRecord)
  | textFile (s : String)
deriving DecidableEq, Repr

def Fs : Type := String × String → FileState

def fsWrite (fs : Fs) (p : String × String) (st : FileState) : Fs :=
  fun q => if q = p then st else fs q

def emptyFs : Fs := fun _ => FileState.absent

structure CacheDirs where
  cacheDir : Option String
  bodiesDir : Option String
deriving DecidableEq, Repr

/-- `HttpCache.get`: `null` when no cache dir, missing file, read error, or
parse error; on a hit with a configured bodies dir, rehydrate the body file
(failures of that write are caught and logged). -/
def cacheGet (dirs : CacheDirs) (hash : String → String) (bodyWriteOk : Bool)
    (fs : Fs) (url : String) : Option CacheRecord × Fs :=
  match dirs.cacheDir with
  | none => (none, fs)
  | some d =>
    match fs (d, hash url) with
    | FileState.jsonFile r =>
      match dirs.bodiesDir with
      | some bd =>
        (some r, if bodyWriteOk then fsWrite fs (bd, hash url) (FileState.textFile r.body) else fs)
      | none => (some r, fs)
    | FileState.textFile _ => (none, fs)
    | FileState.absent => (none, fs)
    | FileState.unreadable => (none, fs)
    | FileState.corrupt _ => (none, fs)

/-- `HttpCache.set`: write the JSON record (url, timestamp, response fields) to
the cache dir and, when configured, the raw body to the bodies dir. -/
def cacheSet (dirs : CacheDirs) (hash : String → String) (ts : String)
    (writeOk bodyWriteOk : Bool) (fs : Fs) (url : String) (resp : RespData) : Fs :=
  let fs1 :=
    match dirs.cacheDir with
    | some d =>
      if writeOk then
        fsWrite fs (d, hash url) (FileState.jsonFile ⟨url, ts, resp.status, resp.contentType, resp.body⟩)
      else fs
    | none => fs
  match dirs.bodiesDir with
  | some bd => if bodyWriteOk then fsWrite fs1 (bd, hash url) (FileState.textFile resp.body) else fs1
  | none => fs1

/-! ## The fetcher (`fetchWithRetry` in the fetcher module)

The network is abstracted by `net : String → NetResult` giving, per request
URL, either an HTTP response (after redirects) or a thrown transport error.
Besides the source's result, the model returns the list of URLs actually
requested over the network (in order) and the resulting filesystem. -/

inductive NetResult where
  | response (status : Nat) (contentType : String) (body : String)
  | transportError (msg : String)
deriving DecidableEq, Repr

inductive FetchResult where
  | success (status : Nat) (contentType : String) (body : String)
      (fetchedUrl : String) (fromCache : Bool)
  | retry (error : String)
  | error (msg : String)
deriving DecidableEq, Repr

def transientCodes : List Nat := [408, 429, 500, 502, 503, 504]

/-- `resp.ok` of the fetch API. -/
def respOk (status : Nat) : Bool := decide (200 ≤ status) && decide (status < 300)

structure FetchOpts where
  maxRetries : Nat
  preferPort : Option (List Char)
deriving DecidableEq, Repr

/-- Cache pre-check of `fetchWithRetry` (absent cache service means a miss). -/
def cacheProbe (cacheCfg : Option CacheDirs) (hash : String → String)
    (bodyWriteOk : Bool) (fs : Fs) (url : String) : Option CacheRecord × Fs :=
  match cacheCfg with
  | some dirs => cacheGet dirs hash bodyWriteOk fs url
  | none => (none, fs)

/-- The port-fallback guard of the source: the URL parses and its port equals
the preferred port (`u.port === preferPort`; an elided port compares unequal
to the non-empty preferred port). -/
def portMatches (opts : FetchOpts) (url : String) : Bool :=
  match parseUrl url.data with
  | some u => opts.preferPort.isSome && u.port == opts.preferPort
  | none => false

/-- `u.port = ""` followed by taking `u.href`. -/
def stripPortUrl (url : String) : String :=
  match parseUrl url.data with
  | some u => String.mk (render { u with port := none })
  | none => url

/-- `url.replace("https://", "http://")`, used only under a
`startsWith("https://")` guard, so it swaps the prefix. -/
def toHttpUrl (url : String) : String :=
  String.mk ("http://".data ++ url.data.drop 8)

/-- Body of `fetchWithRetry`; `fuel` counts the fallback axes not yet tried and
strictly decreases at each recursive (fallback) call, so the wrapper below
invokes it with exact fuel and never reaches the fuel-exhausted stub. -/
def fetchAux (net : String → NetResult) (hash : String → String) (ts : String)
    (writeOk bodyWriteOk : Bool) (cacheCfg : Option CacheDirs) (opts : FetchOpts) :
    Nat → String → Nat → Bool → Bool → Bool → Bool → Fs →
      FetchResult × List String × Fs
  | fuel, url, attempts, canHttp, canNoPort, triedHttp, triedNoPort, fs =>
    match cacheProbe cacheCfg hash bodyWriteOk fs url with
    | (some r, fs1) =>
      (FetchResult.success r.status r.contentType r.body url true, [], fs1)
    | (none, fs1) =>
      match net url with
      | NetResult.response st ct body =>
        if st ∈ transientCodes ∧ attempts < opts.maxRetries then
          (FetchResult.retry ("HTTP " ++ toString st), [url], fs1)
        else if !respOk st then
          (FetchResult.error ("HTTP " ++ toString st), [url], fs1)
        else
          let fs2 :=
            match cacheCfg with
            | some dirs => cacheSet dirs hash ts writeOk bodyWriteOk fs1 url ⟨st, ct, body⟩
            | none => fs1
          (FetchResult.success st ct body url false, [url], fs2)
      | NetResult.transportError msg =>
        match fuel with
        | fuel' + 1 =>
          if !triedNoPort && canNoPort && portMatches opts url then
            let r := fetchAux net hash ts writeOk bodyWriteOk cacheCfg opts fuel'
              (stripPortUrl url) attempts canHttp canNoPort triedHttp true fs1
            (r.1, url :: r.2.1, r.2.2)
          else if !triedHttp && canHttp && startsWithStr url "https://" then
            let r := fetchAux net hash ts writeOk bodyWriteOk cacheCfg opts fuel'
              (toHttpUrl url) attempts canHttp canNoPort true triedNoPort fs1
            (r.1, url :: r.2.1, r.2.2)
          else if attempts < opts.maxRetries then (FetchResult.retry msg, [url], fs1)
          else (FetchResult.error msg, [url], fs1)
        | 0 =>
          if attempts < opts.maxRetries then (FetchResult.retry msg, [url], fs1)
          else (FetchResult.error msg, [url], fs1)

/-- `fetchWithRetry(url, attempts, canFallbackToHttp, canFallbackToNoPort,
cache, options, triedHttpFallback, triedNoPortFallback)`. -/
def fetchWithRetry (net : String → NetResult) (hash : String → String) (ts : String)
    (writeOk bodyWriteOk : Bool) (cacheCfg : Option CacheDirs) (opts : FetchOpts)
    (url : String) (attempts : Nat) (canHttp canNoPort triedHttp triedNoPort : Bool)
    (fs : Fs) : FetchResult × List String × Fs :=
  fetchAux net hash ts writeOk bodyWriteOk cacheCfg opts
    ((if triedHttp then 0 else 1) + (if triedNoPort then 0 else 1))
    url attempts canHttp canNoPort triedHttp triedNoPort fs

/-! ## The crawl engine (`src/crawler.js`) -/

/-- A reference produced by link extraction: the candidate object added to the
`links` / `sitemaps` sets (`{url, cameFromAdditionalHost, sourceUrl, isSitemap}`);
a bare starting URL is `⟨url, false, none, false⟩`. -/
structure Link where
  url : String
  cameFromAdditionalHost : Bool
  sourceUrl : Option String
  isSitemap : Bool
deriving DecidableEq, Repr

/-- A frontier entry as pushed by `enqueue`. -/
structure Entry where
  url : String
  attempts : Nat
  canFallbackToHttp : Bool
  canFallbackToNoPort : Bool
  cameFromAdditionalHost : Bool
  isSitemap : Bool
deriving DecidableEq, Repr

/-- The engine's shared mutable state; `inflight` holds the entries popped by
workers whose results are still pending. `failed` is an association list with
`Map.set` semantics, `referrers` the edge set `target → source`. -/
structure EngineState where
  seen : List String
  discovered : List String
  failed : List (String × String)
  referrers : List (String × String)
  queue : List Entry
  inflight : List Entry
deriving DecidableEq, Repr

def engineInit : EngineState := ⟨[], [], [], [], [], []⟩

/-- `referrers.get(norm).add(sourceUrl)` (set semantics). -/
def addEdge (refs : List (String × String)) (target src : String) :
    List (String × String) :=
  if (target, src) ∈ refs then refs else refs ++ [(target, src)]

/-- JS `Map.set`: replace the value if the key exists, else append. -/
def mapSet (m : List (String × String)) (k v : String) : List (String × String) :=
  if m.any (fun kv => kv.1 == k) then
    m.map (fun kv => if kv.1 = k then (k, v) else kv)
  else m ++ [(k, v)]

def mapKeys (m : List (String × String)) : List String := m.map Prod.fst

/-- `parsed.protocol === "http:"` on the pre-normalization URL
(`false` when parsing throws). -/
def wasHttpOf (url : String) : Bool :=
  match parseUrl url.data with
  | some u => u.scheme == "http".data
  | none => false

/-- `!parsed.port` on the pre-normalization URL (`false` when parsing throws). -/
def wasPortlessOf (url : String) : Bool :=
  match parseUrl url.data with
  | some u => u.port.isNone
  | none => false

/-- `enqueue` from `src/crawler.js`: capture `wasHttp`/`wasPortless` from the
pre-normalization URL, normalize, always record the referrer edge, and push a
fresh entry unless already seen. -/
def enqueueE (cfg : NormCfg) (st : EngineState) (l : Link) : EngineState :=
  match normalizeUrl cfg l.url with
  | none => st
  | some norm =>
    let refs :=
      match l.sourceUrl with
      | some src => addEdge st.referrers norm src
      | none => st.referrers
    if norm ∈ st.seen then { st with referrers := refs }
    else
      { st with
        referrers := refs
        seen := st.seen ++ [norm]
        queue := st.queue ++
          [⟨norm, 0, wasHttpOf l.url, wasPortlessOf l.url && !l.cameFromAdditionalHost,
            l.cameFromAdditionalHost, l.isSitemap⟩] }

def endsWithChars (l suffix : List Char) : Bool :=
  startsWithChars l.reverse suffix.reverse

def htmlExtensions : List (List Char) :=
  [".html".data, ".htm".data, ".php".data, ".asp".data, ".aspx".data,
   ".jsp".data, ".cgi".data, ".pl".data]

/-- `looksLikeHtmlUrl`: root or directory path, known HTML extension
(case-insensitive), or extension-less last segment; `true` when unparseable. -/
def looksLikeHtmlUrl (url : String) : Bool :=
  match parseUrl url.data with
  | none => true
  | some u =>
    if u.path = ['/'] || u.path.getLast? == some '/' then true
    else if htmlExtensions.any (fun e => endsWithChars (u.path.map Char.toLower) e) then true
    else
      match (splitOnC '/' u.path).getLast? with
      | some seg => !seg.isEmpty && !seg.contains '.'
      | none => false

/-- One atomic interaction with the shared engine state.  `seed` is the
initial `enqueue(url)` calls of `main`; `start` is a worker popping the queue
head; `retry`, `fail`, `success` are the three classifications of a completed
fetch, with the links extracted on success over-approximated by an arbitrary
list of candidates (page links and sitemap links are enqueued alike). -/
inductive StepE (cfg : NormCfg) : EngineState → EngineState → Prop where
  | seed (st : EngineState) (url : String) :
      StepE cfg st (enqueueE cfg st ⟨url, false, none, false⟩)
  | start (st : EngineState) (e : Entry) (q : List Entry) :
      st.queue = e :: q →
      StepE cfg st { st with queue := q, inflight := st.inflight ++ [e] }
  | retry (st : EngineState) (e : Entry) (l1 l2 : List Entry) :
      st.inflight = l1 ++ e :: l2 →
      StepE cfg st
        { st with inflight := l1 ++ l2,
                  queue := st.queue ++ [{ e with attempts := e.attempts + 1 }] }
  | fail (st : EngineState) (e : Entry) (l1 l2 : List Entry) (msg : String) :
      st.inflight = l1 ++ e :: l2 →
      StepE cfg st
        { st with inflight := l1 ++ l2,
                  failed :=
                    if looksLikeHtmlUrl e.url then mapSet st.failed e.url msg
                    else st.failed }
  | success (st : EngineState) (e : Entry) (l1 l2 : List Entry)
      (links : List Link) (isHtml isSitemapDetected : Bool) :
      st.inflight = l1 ++ e :: l2 →
      StepE cfg st
        (List.foldl (enqueueE cfg)
          { st with inflight := l1 ++ l2,
                    discovered :=
                      if isHtml && !isSitemapDetected && !(st.discovered.contains e.url)
                      then st.discovered ++ [e.url] else st.discovered }
          links)

def ReachableE (cfg : NormCfg) (st : EngineState) : Prop :=
  Relation.ReflTransGen (StepE cfg) engineInit st

/-- The URLs of all pending work (queued or in flight). -/
def liveUrls (st : EngineState) : List String :=
  st.queue.map Entry.url ++ st.inflight.map Entry.url

/-- The invariants claimed for every reachable engine state. -/
def coreInvariant (st : EngineState) : Prop :=
  (∀ u ∈ st.discovered, u ∈ st.seen) ∧
  (∀ u ∈ mapKeys st.failed, u ∈ st.seen) ∧
  (∀ u ∈ st.discovered, u ∉ mapKeys st.failed)

/-- Monotone growth of the four record sets across a step. -/
def GrowsE (s s' : EngineState) : Prop :=
  (∀ u ∈ s.seen, u ∈ s'.seen) ∧
  (∀ u ∈ s.discovered, u ∈ s'.discovered) ∧
  (∀ k ∈ mapKeys s.failed, k ∈ mapKeys s'.failed) ∧
  (∀ e ∈ s.referrers, e ∈ s'.referrers)

/-! ## Link extraction: `addLink` and the fixer-upper -/

/-- The configuration `addLink` closes over: normalization preferences, the
main host, the additional-host substitution set, and the first seed's scheme
(`firstStartUrlParsed.protocol`). -/
structure CrawlCfg where
  norm : NormCfg
  mainHost : List Char
  additionalHosts : List (List Char)
  seedScheme : List Char
deriving DecidableEq, Repr

def isWsChar (c : Char) : Bool :=
  c == ' ' || c == '\t' || c == '\n' || c == '\r' || c == Char.ofNat 11 || c == Char.ofNat 12

/-- The regex `^[^\s@]+@[^\s@]+\.[^\s@]+$`: no whitespace, exactly one `@`
with a non-empty part before it, and after it a dot with non-empty text on
both sides. -/
def looksLikeEmail (s : String) : Bool :=
  let cs := s.data
  let a := cs.takeWhile (fun c => !(c == '@'))
  let b := (cs.dropWhile (fun c => !(c == '@'))).tail
  cs.all (fun c => !isWsChar c) && decide (cs.count '@' = 1) &&
    !a.isEmpty && !b.isEmpty && b.tail.dropLast.contains '.'

/-- Strip `[\s\-\.\(\)]` then test `^\+?\d{7,15}$`. -/
def looksLikePhoneNumber (s : String) : Bool :=
  let cleaned := s.data.filter
    (fun c => !(isWsChar c || c == '-' || c == '.' || c == '(' || c == ')'))
  let ds := if cleaned.head? = some '+' then cleaned.tail else cleaned
  ds.all Char.isDigit && decide (7 ≤ ds.length) && decide (ds.length ≤ 15)

/-- `baseDir`: the base URL's directory path, `'/' + segments.join('/') + '/'`
after dropping the last path segment (or `/` at the root). -/
def baseDirOf (base : Url) : List Char :=
  let segs := ((splitOnC '/' base.path).filter (fun s => !s.isEmpty)).dropLast
  '/' :: joinC '/' segs ++ (if segs.isEmpty then [] else ['/'])

/-- Outcome of the fixer-upper test on a resolved reference.  `noMatch`: the
path does not have the form `<baseDir>/<host-like segment>/…`; `fixParseFail`:
building the repaired URL threw (the source then falls through to normal
processing); `normFail`: a normalization returned `null` (the source returns
without emitting anything); `fixed`: both normalized forms are emitted and the
unfixed→fixed mapping is recorded. -/
inductive FixerOutcome where
  | noMatch
  | fixParseFail (remaining : List Char)
  | normFail
  | fixed (unfixedNorm fixedNorm : String) (isAdditional : Bool)
deriving DecidableEq, Repr

/-- The fixer-upper branch of `addLink`, which inspects only the resolved
URL's path against the base directory and the host lists. -/
def fixerCheck (cfg : CrawlCfg) (base : Url) (resolved : Url) : FixerOutcome :=
  let baseDir := baseDirOf base
  if startsWithChars resolved.path baseDir then
    let remaining := resolved.path.drop baseDir.length
    let remSegs := (splitOnC '/' remaining).filter (fun s => !s.isEmpty)
    match remSegs.head? with
    | some firstSegment =>
      let isMain := firstSegment == cfg.mainHost
      let isAdd := cfg.additionalHosts.contains firstSegment
      if isMain || isAdd then
        match parseUrl (cfg.seedScheme ++ ':' :: '/' :: '/' :: remaining) with
        | some fixedResolved =>
          match normalizeUrl cfg.norm (String.mk (render fixedResolved)),
                normalizeUrl cfg.norm (String.mk (render resolved)) with
          | some fixedNorm, some unfixedNorm =>
            FixerOutcome.fixed unfixedNorm fixedNorm isAdd
          | _, _ => FixerOutcome.normFail
        | none => FixerOutcome.fixParseFail remaining
      else FixerOutcome.noMatch
    | none => FixerOutcome.noMatch
  else FixerOutcome.noMatch

/-- What one `addLink` call adds to the `links` set and to the `fixerUppers`
map. -/
structure AddLinkOut where
  links : List Link
  fixerMap : List (String × String)
deriving DecidableEq, Repr

def emptyOut : AddLinkOut := ⟨[], []⟩

/-- `addLink(links, href, baseUrl, base)`.  `decode` abstracts the
HTML-entity decoder (`he.decode`); `resolve` abstracts `new URL(decoded,
baseUrl)` — on hrefs that are themselves absolute URLs of the modeled
fragment it agrees with `parseUrl`. -/
def addLink (decode : String → String) (resolve : String → Url → Option Url)
    (cfg : CrawlCfg) (base : Url) (baseUrl : String) (href : String) : AddLinkOut :=
  if href.isEmpty then emptyOut
  else if startsWithStr href "#" then emptyOut
  else if startsWithStr href "javascript:" || startsWithStr href "mailto:" ||
      startsWithStr href "tel:" || startsWithStr href "data:" then emptyOut
  else
    let decoded := decode href
    if looksLikeEmail decoded then emptyOut
    else if looksLikePhoneNumber decoded then emptyOut
    else
      match resolve decoded base with
      | none => emptyOut
      | some resolved =>
        match fixerCheck cfg base resolved with
        | FixerOutcome.fixed unfixedNorm fixedNorm isAdd =>
          ⟨[⟨unfixedNorm, false, some baseUrl, false⟩,
            ⟨fixedNorm, isAdd, some baseUrl, false⟩],
            [(unfixedNorm, fixedNorm)]⟩
        | FixerOutcome.normFail => emptyOut
        | _ =>
          let isMain := resolved.host == base.host
          let isAdd := cfg.additionalHosts.contains resolved.host
          if isMain || isAdd then
            let rewritten :=
              if isAdd then
                { resolved with host := cfg.mainHost, scheme := cfg.seedScheme,
                                port := none }
              else resolved
            match normalizeUrl cfg.norm (String.mk (render rewritten)) with
            | some norm => ⟨[⟨norm, isAdd, some baseUrl, false⟩], []⟩
            | none => emptyOut
          else emptyOut

/-! ## The sitemap parser (`parseSitemap`)

The SAX layer is abstracted as the stream of events it delivers to the
handlers registered by `parseSitemap` (tag names already lowercased by the
`lowercase: true` parser option).  A stream is terminated by `endEv` or by
`errorEv`; both resolve the promise with whatever was accumulated. -/

inductive SaxEvent where
  | opentag (name : String)
  | textEv (s : String)
  | closetag (name : String)
  | errorEv (msg : String)
  | endEv
deriving DecidableEq, Repr

structure SitemapSt where
  inLoc : Bool
  inSitemap : Bool
  inUrl : Bool
  currentLoc : String
  urls : List String
  sitemaps : List String
deriving DecidableEq, Repr

def sitemapStart : SitemapSt := ⟨false, false, false, "", [], []⟩

def openStep (st : SitemapSt) (name : String) : SitemapSt :=
  if name = "loc" then { st with inLoc := true, currentLoc := "" }
  else if name = "sitemap" then { st with inSitemap := true }
  else if name = "url" then { st with inUrl := true }
  else st

def textStep (st : SitemapSt) (t : String) : SitemapSt :=
  if st.inLoc then { st with currentLoc := st.currentLoc ++ t } else st

def closeStep (st : SitemapSt) (name : String) : SitemapSt :=
  if name = "loc" ∧ st.currentLoc ≠ "" then
    let st' :=
      if st.inSitemap then { st with sitemaps := st.sitemaps ++ [st.currentLoc] }
      else if st.inUrl then { st with urls := st.urls ++ [st.currentLoc] }
      else st
    { st' with inLoc := false, currentLoc := "" }
  else if name = "sitemap" then { st with inSitemap := false }
  else if name = "url" then { st with inUrl := false }
  else st

/-- Drive the handlers over the event stream; the first terminal event
resolves with the URLs and sub-sitemaps collected so far. -/
def runSitemap (st : SitemapSt) : List SaxEvent → List String × List String
  | [] => (st.urls, st.sitemaps)
  | ev :: rest =>
    match ev with
    | SaxEvent.endEv => (st.urls, st.sitemaps)
    | SaxEvent.errorEv _ => (st.urls, st.sitemaps)
    | SaxEvent.opentag n => runSitemap (openStep st n) rest
    | SaxEvent.textEv t => runSitemap (textStep st t) rest
    | SaxEvent.closetag n => runSitemap (closeStep st n) rest

/-- `parseSitemap` on an event stream, from the parser's initial state. -/
def parseSitemapEvents (evs : List SaxEvent) : List String × List String :=
  runSitemap sitemapStart evs

/-! ## List helper lemmas -/

theorem takeWhile_append_stop {p : Char → Bool} {l r : List Char}
    (hl : ∀ c ∈ l, p c = true) (hr : ∀ c, r.head? = some c → p c = false) :
    (l ++ r).takeWhile p = l := by
  induction l with
  | nil =>
    cases r with
    | nil => rfl
    | cons c r' => simp [List.takeWhile_cons, hr c rfl]
  | cons a l ih =>
    have ha := hl a (by simp)
    simp only [List.cons_append, List.takeWhile_cons, ha, if_true]
    rw [ih (fun c hc => hl c (by simp [hc]))]

theorem dropWhile_append_stop {p : Char → Bool} {l r : List Char}
    (hl : ∀ c ∈ l, p c = true) (hr : ∀ c, r.head? = some c → p c = false) :
    (l ++ r).dropWhile p = r := by
  induction l with
  | nil =>
    cases r with
    | nil => rfl
    | cons c r' => simp [List.dropWhile_cons, hr c rfl]
  | cons a l ih =>
    have ha := hl a (by simp)
    simp only [List.cons_append, List.dropWhile_cons, ha, if_true]
    exact ih (fun c hc => hl c (by simp [hc]))

theorem takeWhile_all {p : Char → Bool} {l : List Char}
    (hl : ∀ c ∈ l, p c = true) : l.takeWhile p = l := by
  have := takeWhile_append_stop (r := []) hl (fun c hc => by cases hc)
  simpa using this

theorem dropWhile_all {p : Char → Bool} {l : List Char}
    (hl : ∀ c ∈ l, p c = true) : l.dropWhile p = [] := by
  have := dropWhile_append_stop (r := []) hl (fun c hc => by cases hc)
  simpa using this

theorem all_takeWhile (p : Char → Bool) (l : List Char) :
    (l.takeWhile p).all p = true := by
  induction l with
  | nil => rfl
  | cons a l ih =>
    by_cases h : p a = true
    · simp [List.takeWhile_cons, h, ih]
    · simp [List.takeWhile_cons, h]

/-! ## Parse/render roundtrip -/

theorem parseQF_render {scheme host : List Char} {port : Option (List Char)}
    {path : List Char} {q f : Option (List Char)}
    (hq : ∀ qs, q = some qs → qs.all isQueryChar = true)
    (hf : ∀ fs, f = some fs → fs.all isFragChar = true) :
    parseQF scheme host port path (renderQuery q ++ renderFrag f) =
      some ⟨scheme, host, port, path, q, f⟩ := by
  cases q with
  | none =>
    cases f with
    | none => rfl
    | some fs => simp [renderQuery, renderFrag, parseQF, hf fs rfl]
  | some qs =>
    have hqs := hq qs rfl
    cases f with
    | none =>
      simp only [renderQuery, renderFrag, List.append_nil, parseQF]
      rw [takeWhile_all (List.all_eq_true.mp hqs),
          dropWhile_all (List.all_eq_true.mp hqs)]
    | some fs =>
      simp only [renderQuery, renderFrag, List.cons_append, parseQF]
      rw [takeWhile_append_stop (List.all_eq_true.mp hqs)
            (fun c hc => by simp at hc; subst hc; decide),
          dropWhile_append_stop (List.all_eq_true.mp hqs)
            (fun c hc => by simp at hc; subst hc; decide)]
      simp [hf fs rfl]

theorem parseTail_render {scheme host : List Char} {port : Option (List Char)}
    {path : List Char} {q f : Option (List Char)}
    (hhead : path.head? = some '/') (hp : path.all isPathChar = true)
    (hq : ∀ qs, q = some qs → qs.all isQueryChar = true)
    (hf : ∀ fs, f = some fs → fs.all isFragChar = true) :
    parseTail scheme host port (path ++ (renderQuery q ++ renderFrag f)) =
      some ⟨scheme, host, port, path, q, f⟩ := by
  cases path with
  | nil => cases hhead
  | cons c t =>
    have hc : c = '/' := by simpa using hhead
    subst hc
    have hstop : ∀ c, (renderQuery q ++ renderFrag f).head? = some c →
        isPathChar c = false := by
      intro c hc
      cases q with
      | some qs => simp [renderQuery] at hc; subst hc; decide
      | none =>
        cases f with
        | some fs => simp [renderQuery, renderFrag] at hc; subst hc; decide
        | none => simp [renderQuery, renderFrag] at hc
    rw [List.cons_append]
    simp only [parseTail]
    rw [← List.cons_append, takeWhile_append_stop (List.all_eq_true.mp hp) hstop,
        dropWhile_append_stop (List.all_eq_true.mp hp) hstop]
    exact parseQF_render hq hf

theorem parseUrl_append {scheme r2 : List Char}
    (h1 : ∀ c ∈ scheme, isSchemeChar c = true) :
    parseUrl (scheme ++ ':' :: '/' :: '/' :: r2) =
      if scheme = "http".data ∨ scheme = "https".data then parseAuthority scheme r2
      else none := by
  have hstop : ∀ c, (':' :: '/' :: '/' :: r2).head? = some c →
      isSchemeChar c = false := by
    intro c hc
    simp only [List.head?_cons, Option.some.injEq] at hc
    subst hc; decide
  simp only [parseUrl]
  rw [takeWhile_append_stop h1 hstop, dropWhile_append_stop h1 hstop]
  rfl

theorem parseAuthority_append {host r3 : List Char} (scheme : List Char)
    (hne : host ≠ []) (hall : host.all isHostChar = true)
    (hstop : ∀ c, r3.head? = some c → isHostChar c = false) :
    parseAuthority scheme (host ++ r3) = parsePort scheme host r3 := by
  simp only [parseAuthority]
  rw [takeWhile_append_stop (List.all_eq_true.mp hall) hstop,
      dropWhile_append_stop (List.all_eq_true.mp hall) hstop]
  simp [hne]

theorem parsePort_some {p r4 : List Char} (scheme host : List Char)
    (hne : p ≠ []) (hall : p.all Char.isDigit = true)
    (hstop : ∀ c, r4.head? = some c → c.isDigit = false) :
    parsePort scheme host (':' :: (p ++ r4)) =
      if p.head? = some '0' then none
      else parseTail scheme host
        (if p = defaultPort scheme then none else some p) r4 := by
  simp only [parsePort]
  rw [takeWhile_append_stop (List.all_eq_true.mp hall) hstop,
      dropWhile_append_stop (List.all_eq_true.mp hall) hstop]
  simp [hne]

theorem parseUrl_render {u : Url} (h : u.wellFormed = true) :
    parseUrl (render u) = some u := by
  obtain ⟨scheme, host, port, path, q, f⟩ := u
  simp only [Url.wellFormed, Bool.and_eq_true, Bool.or_eq_true, beq_iff_eq,
    Bool.not_eq_true', List.isEmpty_eq_false, List.isEmpty_iff] at h
  obtain ⟨⟨⟨⟨⟨⟨⟨⟨hscheme, hhostne⟩, hhostall⟩, hport⟩, hpathne⟩, hpathhead⟩,
    hpathall⟩, hqm⟩, hfm⟩ := h
  have hq' : ∀ qs, q = some qs → qs.all isQueryChar = true := by
    intro qs hqs; subst hqs; exact hqm
  have hf' : ∀ fs, f = some fs → fs.all isFragChar = true := by
    intro fs hfs; subst hfs; exact hfm
  have hschars : ∀ c ∈ scheme, isSchemeChar c = true := by
    rcases hscheme with hs | hs <;> subst hs <;> decide
  have hpathstop : ∀ (pr : Char → Bool), pr '/' = false →
      ∀ c, (path ++ (renderQuery q ++ renderFrag f)).head? = some c →
        pr c = false := by
    intro pr hpr c hc
    cases path with
    | nil => exact absurd rfl hpathne
    | cons pc pt =>
      have hpc : pc = '/' := by simpa using hpathhead
      simp only [List.cons_append, List.head?_cons, Option.some.injEq] at hc
      subst hc; subst hpc; exact hpr
  have hrender : render ⟨scheme, host, port, path, q, f⟩ =
      scheme ++ ':' :: '/' :: '/' ::
        (host ++ (renderPort port ++ (path ++ (renderQuery q ++ renderFrag f)))) := by
    simp [render]
  rw [hrender, parseUrl_append hschars, if_pos hscheme]
  cases port with
  | none =>
    rw [show renderPort none ++ (path ++ (renderQuery q ++ renderFrag f)) =
          path ++ (renderQuery q ++ renderFrag f) from rfl]
    rw [parseAuthority_append scheme hhostne hhostall
          (hpathstop isHostChar (by decide))]
    cases path with
    | nil => exact absurd rfl hpathne
    | cons pc pt =>
      have hpc : pc = '/' := by simpa using hpathhead
      subst hpc
      rw [show parsePort scheme host (('/' :: pt) ++ (renderQuery q ++ renderFrag f)) =
            parseTail scheme host none
              (('/' :: pt) ++ (renderQuery q ++ renderFrag f)) from rfl]
      exact parseTail_render hpathhead hpathall hq' hf'
  | some p =>
    simp only [Bool.and_eq_true, Bool.not_eq_true', beq_eq_false_iff_ne,
      List.isEmpty_eq_false, List.isEmpty_iff, ne_eq] at hport
    obtain ⟨⟨⟨hpne, hpall⟩, hpzero⟩, hpdef⟩ := hport
    have hcolon : ∀ c,
        (':' :: (p ++ (path ++ (renderQuery q ++ renderFrag f)))).head? = some c →
          isHostChar c = false := by
      intro c hc
      simp only [List.head?_cons, Option.some.injEq] at hc
      subst hc; decide
    rw [show renderPort (some p) ++ (path ++ (renderQuery q ++ renderFrag f)) =
          ':' :: (p ++ (path ++ (renderQuery q ++ renderFrag f))) from rfl]
    rw [parseAuthority_append scheme hhostne hhostall hcolon]
    rw [parsePort_some scheme host hpne hpall
          (hpathstop Char.isDigit (by decide))]
    rw [if_neg (by simpa using hpzero), if_neg hpdef]
    exact parseTail_render hpathhead hpathall hq' hf'

/-! ## Everything the parser produces is well-formed -/

theorem wellFormed_build {scheme host : List Char} {port : Option (List Char)}
    {path : List Char} {q f : Option (List Char)}
    (hs : scheme = "http".data ∨ scheme = "https".data)
    (hhne : host ≠ []) (hhall : host.all isHostChar = true)
    (hport : (match port with
      | none => true
      | some p => !p.isEmpty && p.all Char.isDigit && !(p.head? == some '0') &&
          !(p == defaultPort scheme)) = true)
    (hpne : path ≠ []) (hphead : path.head? = some '/')
    (hpall : path.all isPathChar = true)
    (hq : (match q with | none => true | some qs => qs.all isQueryChar) = true)
    (hf : (match f with | none => true | some fs => fs.all isFragChar) = true) :
    Url.wellFormed ⟨scheme, host, port, path, q, f⟩ = true := by
  unfold Url.wellFormed
  simp only [Bool.and_eq_true]
  refine ⟨⟨⟨⟨⟨⟨⟨⟨?_, ?_⟩, hhall⟩, hport⟩, ?_⟩, ?_⟩, hpall⟩, hq⟩, hf⟩
  · rcases hs with h | h <;> simp [h]
  · simp [List.isEmpty_iff, hhne]
  · simp [List.isEmpty_iff, hpne]
  · simp [hphead]

theorem parseQF_wf {scheme host : List Char} {port : Option (List Char)}
    {path rest : List Char} {u : Url}
    (hs : scheme = "http".data ∨ scheme = "https".data)
    (hhne : host ≠ []) (hhall : host.all isHostChar = true)
    (hport : (match port with
      | none => true
      | some p => !p.isEmpty && p.all Char.isDigit && !(p.head? == some '0') &&
          !(p == defaultPort scheme)) = true)
    (hpne : path ≠ []) (hphead : path.head? = some '/')
    (hpall : path.all isPathChar = true)
    (h : parseQF scheme host port path rest = some u) :
    u.wellFormed = true := by
  simp only [parseQF] at h
  split at h
  · obtain rfl : _ = u := Option.some.inj h
    exact wellFormed_build hs hhne hhall hport hpne hphead hpall rfl rfl
  · rename_i r2
    split at h
    · obtain rfl : _ = u := Option.some.inj h
      exact wellFormed_build hs hhne hhall hport hpne hphead hpall
        (all_takeWhile isQueryChar r2) rfl
    · rename_i fcs heq2
      split at h
      · obtain rfl : _ = u := Option.some.inj h
        exact wellFormed_build hs hhne hhall hport hpne hphead hpall
          (all_takeWhile isQueryChar r2) (by assumption)
      · cases h
    · cases h
  · rename_i fcs
    split at h
    · obtain rfl : _ = u := Option.some.inj h
      exact wellFormed_build hs hhne hhall hport hpne hphead hpall rfl
        (by assumption)
    · cases h
  · cases h

theorem parseTail_wf {scheme host : List Char} {port : Option (List Char)}
    {rest : List Char} {u : Url}
    (hs : scheme = "http".data ∨ scheme = "https".data)
    (hhne : host ≠ []) (hhall : host.all isHostChar = true)
    (hport : (match port with
      | none => true
      | some p => !p.isEmpty && p.all Char.isDigit && !(p.head? == some '0') &&
          !(p == defaultPort scheme)) = true)
    (h : parseTail scheme host port rest = some u) :
    u.wellFormed = true := by
  simp only [parseTail] at h
  split at h
  · obtain rfl : _ = u := Option.some.inj h
    exact wellFormed_build hs hhne hhall hport (by decide) (by decide) (by decide)
      rfl rfl
  · rename_i t
    have htw : List.takeWhile isPathChar ('/' :: t) = '/' :: List.takeWhile isPathChar t := by
      rw [List.takeWhile_cons, if_pos (by decide : isPathChar '/' = true)]
    refine parseQF_wf hs hhne hhall hport ?_ ?_ (all_takeWhile isPathChar _) h
    · rw [htw]; exact List.cons_ne_nil _ _
    · rw [htw]; rfl
  · exact parseQF_wf hs hhne hhall hport (by decide) (by decide) (by decide) h
  · exact parseQF_wf hs hhne hhall hport (by decide) (by decide) (by decide) h
  · cases h

theorem parseUrl_wf {cs : List Char} {u : Url} (h : parseUrl cs = some u) :
    u.wellFormed = true := by
  simp only [parseUrl] at h
  split at h
  · rename_i r2 heq
    split at h
    · rename_i hs
      simp only [parseAuthority] at h
      split at h
      · cases h
      · rename_i hhost
        have hhne : r2.takeWhile isHostChar ≠ [] := by
          simpa [List.isEmpty_iff] using hhost
        simp only [parsePort] at h
        split at h
        · rename_i r4 heq2
          split at h
          · cases h
          · split at h
            · cases h
            · rename_i hpe hpz
              have hne2 : List.takeWhile Char.isDigit r4 ≠ [] :=
                fun hnil => hpe (by rw [hnil]; rfl)
              refine parseTail_wf hs hhne (all_takeWhile isHostChar r2) ?_ h
              by_cases hdef : List.takeWhile Char.isDigit r4 =
                  defaultPort (List.takeWhile isSchemeChar cs)
              · rw [if_pos hdef]
              · rw [if_neg hdef]
                simp only [Bool.and_eq_true]
                refine ⟨⟨⟨?_, all_takeWhile Char.isDigit r4⟩, ?_⟩, ?_⟩
                · simp [List.isEmpty_iff, hne2]
                · simp [hpz]
                · simp [hdef]
        · exact parseTail_wf hs hhne (all_takeWhile isHostChar r2) rfl h
    · cases h
  · cases h

/-! ## Query-parameter lemmas -/

theorem mem_takeWhile {p : Char → Bool} {l : List Char} {c : Char}
    (h : c ∈ l.takeWhile p) : c ∈ l ∧ p c = true := by
  induction l with
  | nil => cases h
  | cons a l ih =>
    rw [List.takeWhile_cons] at h
    by_cases ha : p a = true
    · rw [if_pos ha] at h
      rcases List.mem_cons.mp h with h | h
      · subst h; exact ⟨List.mem_cons_self _ _, ha⟩
      · exact ⟨List.mem_cons_of_mem _ (ih h).1, (ih h).2⟩
    · rw [if_neg ha] at h; cases h

theorem mem_dropWhile {p : Char → Bool} {l : List Char} {c : Char}
    (h : c ∈ l.dropWhile p) : c ∈ l := by
  induction l with
  | nil => cases h
  | cons a l ih =>
    rw [List.dropWhile_cons] at h
    by_cases ha : p a = true
    · rw [if_pos ha] at h; exact List.mem_cons_of_mem _ (ih h)
    · rw [if_neg ha] at h; exact h

theorem mem_of_mem_tail {l : List Char} {c : Char} (h : c ∈ l.tail) : c ∈ l := by
  cases l with
  | nil => cases h
  | cons a l => exact List.mem_cons_of_mem _ h

theorem splitOnC_exists (sep : Char) (s : List Char) :
    ∃ s0 ss, splitOnC sep s = s0 :: ss := by
  induction s with
  | nil => exact ⟨[], [], rfl⟩
  | cons c rest ih =>
    obtain ⟨s0, ss, hsp⟩ := ih
    by_cases hc : c = sep
    · exact ⟨[], splitOnC sep rest, by simp [splitOnC, hc]⟩
    · exact ⟨c :: s0, ss, by simp [splitOnC, if_neg hc, hsp, consHead]⟩

theorem splitOnC_sep_free {sep : Char} {s : List Char} (h : sep ∉ s) :
    splitOnC sep s = [s] := by
  induction s with
  | nil => rfl
  | cons c rest ih =>
    have hc : ¬c = sep := fun hcs => h (hcs ▸ List.mem_cons_self _ _)
    have hrest : sep ∉ rest := fun hm => h (List.mem_cons_of_mem _ hm)
    simp only [splitOnC, if_neg hc, ih hrest, consHead]

theorem splitOnC_append {sep : Char} {a r : List Char} (h : sep ∉ a) :
    splitOnC sep (a ++ sep :: r) = a :: splitOnC sep r := by
  induction a with
  | nil => simp [splitOnC]
  | cons c rest ih =>
    have hc : ¬c = sep := fun hcs => h (hcs ▸ List.mem_cons_self _ _)
    have hrest : sep ∉ rest := fun hm => h (List.mem_cons_of_mem _ hm)
    simp only [List.cons_append, splitOnC, if_neg hc, List.append_eq]
    rw [ih hrest]
    simp [consHead]

theorem mem_of_mem_splitOnC {sep : Char} {s : List Char} {c : Char} :
    ∀ {t}, t ∈ splitOnC sep s → c ∈ t → c ∈ s := by
  induction s with
  | nil =>
    intro t ht hc
    simp only [splitOnC, List.mem_singleton] at ht
    subst ht; cases hc
  | cons a rest ih =>
    intro t ht hc
    by_cases ha : a = sep
    · have hsplit : splitOnC sep (a :: rest) = [] :: splitOnC sep rest := by
        simp [splitOnC, if_pos ha]
      rw [hsplit] at ht
      rcases List.mem_cons.mp ht with ht2 | ht2
      · subst ht2; cases hc
      · exact List.mem_cons_of_mem _ (ih ht2 hc)
    · obtain ⟨s0, ss, hsp⟩ := splitOnC_exists sep rest
      simp only [splitOnC, if_neg ha, hsp, consHead] at ht
      rcases List.mem_cons.mp ht with h | h
      · subst h
        rcases List.mem_cons.mp hc with h | h
        · subst h; exact List.mem_cons_self _ _
        · exact List.mem_cons_of_mem _ (ih (hsp ▸ List.mem_cons_self _ _) h)
      · exact List.mem_cons_of_mem _ (ih (hsp ▸ List.mem_cons_of_mem _ h) hc)

theorem sep_not_mem_splitOnC {sep : Char} {s : List Char} :
    ∀ {t}, t ∈ splitOnC sep s → sep ∉ t := by
  induction s with
  | nil =>
    intro t ht
    simp only [splitOnC, List.mem_singleton] at ht
    subst ht; exact List.not_mem_nil _
  | cons a rest ih =>
    intro t ht
    by_cases ha : a = sep
    · have hsplit : splitOnC sep (a :: rest) = [] :: splitOnC sep rest := by
        simp [splitOnC, if_pos ha]
      rw [hsplit] at ht
      rcases List.mem_cons.mp ht with ht2 | ht2
      · subst ht2; exact List.not_mem_nil _
      · exact ih ht2
    · obtain ⟨s0, ss, hsp⟩ := splitOnC_exists sep rest
      simp only [splitOnC, if_neg ha, hsp, consHead] at ht
      rcases List.mem_cons.mp ht with h | h
      · subst h
        intro hm
        rcases List.mem_cons.mp hm with h | h
        · exact ha h.symm
        · exact ih (hsp ▸ List.mem_cons_self _ _) h
      · exact ih (hsp ▸ List.mem_cons_of_mem _ h)

/-- Keys contain no `=` and no `&`; values contain no `&`. -/
def paramsClean (l : List (List Char × List Char)) : Prop :=
  ∀ kv ∈ l, '=' ∉ kv.1 ∧ '&' ∉ kv.1 ∧ '&' ∉ kv.2

theorem parseParams_clean (q : List Char) : paramsClean (parseParams q) := by
  intro kv hkv
  simp only [parseParams, List.mem_map, List.mem_filter] at hkv
  obtain ⟨seg, ⟨hseg, _⟩, hpair⟩ := hkv
  subst hpair
  refine ⟨?_, ?_, ?_⟩
  · intro hm
    have := (mem_takeWhile hm).2
    simp at this
  · intro hm
    exact sep_not_mem_splitOnC hseg ((mem_takeWhile hm).1)
  · intro hm
    exact sep_not_mem_splitOnC hseg (mem_dropWhile (mem_of_mem_tail hm))

theorem parsePair_encode {k v : List Char} (hk : '=' ∉ k) :
    parsePair (k ++ '=' :: v) = (k, v) := by
  have hl : ∀ c ∈ k, (!(c == '=')) = true := by
    intro c hc
    simp only [Bool.not_eq_eq_eq_not, Bool.not_true, beq_eq_false_iff_ne, ne_eq]
    exact fun he => hk (he ▸ hc)
  have hr : ∀ c, (('=' :: v : List Char)).head? = some c → (!(c == '=')) = false := by
    intro c hc
    simp only [List.head?_cons, Option.some.injEq] at hc
    subst hc; rfl
  simp only [parsePair]
  rw [takeWhile_append_stop hl hr, dropWhile_append_stop hl hr]
  rfl

theorem seg_encode_ne_nil (k v : List Char) : k ++ '=' :: v ≠ [] := by
  cases k <;> simp

theorem amp_not_mem_seg {k v : List Char} (hk : '&' ∉ k) (hv : '&' ∉ v) :
    '&' ∉ (k ++ '=' :: v) := by
  intro hm
  rcases List.mem_append.mp hm with h | h
  · exact hk h
  · rcases List.mem_cons.mp h with h | h
    · cases h
    · exact hv h

theorem parseParams_paramsToString {l : List (List Char × List Char)}
    (h : paramsClean l) : parseParams (paramsToString l) = l := by
  induction l with
  | nil => rfl
  | cons kv rest ih =>
    obtain ⟨k, v⟩ := kv
    obtain ⟨hkeq, hkamp, hvamp⟩ := h _ (List.mem_cons_self _ _)
    have hrest : paramsClean rest := fun kv' hkv' => h _ (List.mem_cons_of_mem _ hkv')
    cases rest with
    | nil =>
      simp only [paramsToString, List.map_cons, List.map_nil, joinC, parseParams]
      rw [splitOnC_sep_free (amp_not_mem_seg hkamp hvamp)]
      simp only [List.filter_cons, List.filter_nil]
      rw [if_pos (by simp [List.isEmpty_iff, seg_encode_ne_nil k v])]
      simp [parsePair_encode hkeq]
    | cons kv2 rest2 =>
      have hjoin : paramsToString ((k, v) :: kv2 :: rest2) =
          (k ++ '=' :: v) ++ '&' :: paramsToString (kv2 :: rest2) := by
        simp [paramsToString, joinC]
      rw [hjoin]
      simp only [parseParams] at ih ⊢
      rw [splitOnC_append (amp_not_mem_seg hkamp hvamp)]
      simp only [List.filter_cons]
      rw [if_pos (by simp [List.isEmpty_iff, seg_encode_ne_nil k v])]
      simp only [List.map_cons]
      rw [parsePair_encode hkeq, ih hrest]

/-! ## Stable-sort lemmas -/

theorem leChars_total (a b : List Char) :
    leChars a b = true ∨ leChars b a = true := by
  induction a generalizing b with
  | nil => exact Or.inl rfl
  | cons x xs ih =>
    cases b with
    | nil => exact Or.inr rfl
    | cons y ys =>
      by_cases hxy : x = y
      · subst hxy
        simp only [leChars, if_pos rfl]
        exact ih ys
      · rcases lt_or_gt_of_ne hxy with h | h
        · exact Or.inl (by simp [leChars, if_neg hxy, h])
        · refine Or.inr ?_
          have hyx : ¬y = x := fun he => hxy he.symm
          simp [leChars, if_neg hyx, h]

theorem leChars_trans {a b c : List Char}
    (h1 : leChars a b = true) (h2 : leChars b c = true) : leChars a c = true := by
  induction a generalizing b c with
  | nil => rfl
  | cons x xs ih =>
    cases b with
    | nil => cases h1
    | cons y ys =>
      cases c with
      | nil => cases h2
      | cons z zs =>
        by_cases hxy : x = y <;> by_cases hyz : y = z
        · subst hxy; subst hyz
          simp only [leChars, if_pos rfl] at h1 h2 ⊢
          exact ih h1 h2
        · subst hxy
          simp only [leChars, if_pos rfl] at h1
          simp only [leChars, if_neg hyz, decide_eq_true_eq] at h2
          simp [leChars, if_neg hyz, h2]
        · subst hyz
          simp only [leChars, if_neg hxy, decide_eq_true_eq] at h1
          simp [leChars, if_neg hxy, h1]
        · simp only [leChars, if_neg hxy, decide_eq_true_eq] at h1
          simp only [leChars, if_neg hyz, decide_eq_true_eq] at h2
          have hxz : x < z := lt_trans h1 h2
          simp [leChars, ne_of_lt hxz, hxz]

theorem leKey_total (a b : List Char × List Char) :
    leKey a b = true ∨ leKey b a = true := leChars_total a.1 b.1

theorem leKey_trans {a b c : List Char × List Char}
    (h1 : leKey a b = true) (h2 : leKey b c = true) : leKey a c = true :=
  leChars_trans h1 h2

theorem mem_insPair {x y : List Char × List Char}
    {l : List (List Char × List Char)} :
    x ∈ insPair y l ↔ x = y ∨ x ∈ l := by
  induction l with
  | nil => simp [insPair]
  | cons z zs ih =>
    simp only [insPair]
    by_cases h : leKey z y = true
    · rw [if_pos h]
      simp only [List.mem_cons, ih]
      tauto
    · rw [if_neg h]
      simp only [List.mem_cons]

/-- `Pairwise` with the boolean key order. -/
def SortedKeys (l : List (List Char × List Char)) : Prop :=
  l.Pairwise (fun a b => leKey a b = true)

theorem insPair_sorted {x : List Char × List Char}
    {l : List (List Char × List Char)} (h : SortedKeys l) :
    SortedKeys (insPair x l) := by
  induction l with
  | nil => simp [insPair, SortedKeys]
  | cons y ys ih =>
    rcases (List.pairwise_cons.mp h) with ⟨hy, hys⟩
    simp only [insPair]
    by_cases hle : leKey y x = true
    · rw [if_pos hle]
      refine List.pairwise_cons.mpr ⟨?_, ih hys⟩
      intro z hz
      rcases mem_insPair.mp hz with hz | hz
      · subst hz; exact hle
      · exact hy z hz
    · rw [if_neg hle]
      have hxy : leKey x y = true := by
        rcases leKey_total x y with h1 | h1
        · exact h1
        · exact absurd h1 hle
      refine List.pairwise_cons.mpr ⟨?_, h⟩
      intro z hz
      rcases List.mem_cons.mp hz with hz | hz
      · subst hz; exact hxy
      · exact leKey_trans hxy (hy z hz)

theorem foldl_insPair_sorted {l acc : List (List Char × List Char)}
    (h : SortedKeys acc) :
    SortedKeys (l.foldl (fun acc x => insPair x acc) acc) := by
  induction l generalizing acc with
  | nil => exact h
  | cons x xs ih => exact ih (insPair_sorted h)

theorem sortParams_sorted (l : List (List Char × List Char)) :
    SortedKeys (sortParams l) :=
  foldl_insPair_sorted (by simp [SortedKeys])

theorem insPair_of_all_le {x : List Char × List Char}
    {acc : List (List Char × List Char)}
    (h : ∀ y ∈ acc, leKey y x = true) : insPair x acc = acc ++ [x] := by
  induction acc with
  | nil => rfl
  | cons y ys ih =>
    simp only [insPair, if_pos (h y (List.mem_cons_self _ _)), List.cons_append]
    rw [ih (fun z hz => h z (List.mem_cons_of_mem _ hz))]

theorem foldl_insPair_of_sorted {l acc : List (List Char × List Char)}
    (h : SortedKeys (acc ++ l)) :
    l.foldl (fun acc x => insPair x acc) acc = acc ++ l := by
  induction l generalizing acc with
  | nil => simp
  | cons x xs ih =>
    have hx : ∀ y ∈ acc, leKey y x = true := by
      intro y hy
      have := List.pairwise_append.mp h
      exact this.2.2 y hy x (List.mem_cons_self _ _)
    simp only [List.foldl_cons]
    rw [insPair_of_all_le hx, ih (by simpa using h)]
    simp

theorem sortParams_of_sorted {l : List (List Char × List Char)}
    (h : SortedKeys l) : sortParams l = l := by
  have h2 : SortedKeys (([] : List (List Char × List Char)) ++ l) := by
    simpa using h
  have := foldl_insPair_of_sorted h2
  simpa [sortParams] using this

theorem mem_sortParams {x : List Char × List Char}
    {l : List (List Char × List Char)} (h : x ∈ sortParams l) : x ∈ l := by
  have hgen : ∀ (ll acc : List (List Char × List Char)),
      x ∈ ll.foldl (fun acc x => insPair x acc) acc → x ∈ acc ∨ x ∈ ll := by
    intro ll
    induction ll with
    | nil => intro acc h; exact Or.inl h
    | cons y ys ih =>
      intro acc h
      rcases ih (insPair y acc) h with h2 | h2
      · rcases mem_insPair.mp h2 with h3 | h3
        · exact Or.inr (h3 ▸ List.mem_cons_self _ _)
        · exact Or.inl h3
      · exact Or.inr (List.mem_cons_of_mem _ h2)
  rcases hgen l [] h with h2 | h2
  · cases h2
  · exact h2

/-! ## Projection lemmas for the normalization steps -/

theorem schemeStep_host (cfg : NormCfg) (u : Url) :
    (schemeStep cfg u).host = u.host := by
  unfold schemeStep; split <;> rfl

theorem schemeStep_path (cfg : NormCfg) (u : Url) :
    (schemeStep cfg u).path = u.path := by
  unfold schemeStep; split <;> rfl

theorem schemeStep_query (cfg : NormCfg) (u : Url) :
    (schemeStep cfg u).query = u.query := by
  unfold schemeStep; split <;> rfl

theorem schemeStep_frag (cfg : NormCfg) (u : Url) :
    (schemeStep cfg u).frag = u.frag := by
  unfold schemeStep; split <;> rfl

theorem portStep_scheme (cfg : NormCfg) (u : Url) :
    (portStep cfg u).scheme = u.scheme := by
  unfold portStep
  split
  · split <;> rfl
  · rfl

theorem portStep_host (cfg : NormCfg) (u : Url) :
    (portStep cfg u).host = u.host := by
  unfold portStep
  split
  · split <;> rfl
  · rfl

theorem portStep_path (cfg : NormCfg) (u : Url) :
    (portStep cfg u).path = u.path := by
  unfold portStep
  split
  · split <;> rfl
  · rfl

theorem portStep_query (cfg : NormCfg) (u : Url) :
    (portStep cfg u).query = u.query := by
  unfold portStep
  split
  · split <;> rfl
  · rfl

theorem portStep_frag (cfg : NormCfg) (u : Url) :
    (portStep cfg u).frag = u.frag := by
  unfold portStep
  split
  · split <;> rfl
  · rfl

theorem sortQueryStep_scheme (u : Url) : (sortQueryStep u).scheme = u.scheme := by
  unfold sortQueryStep
  split <;> rfl

theorem sortQueryStep_host (u : Url) : (sortQueryStep u).host = u.host := by
  unfold sortQueryStep
  split <;> rfl

theorem sortQueryStep_port (u : Url) : (sortQueryStep u).port = u.port := by
  unfold sortQueryStep
  split <;> rfl

theorem sortQueryStep_path (u : Url) : (sortQueryStep u).path = u.path := by
  unfold sortQueryStep
  split <;> rfl

theorem sortQueryStep_frag (u : Url) : (sortQueryStep u).frag = u.frag := by
  unfold sortQueryStep
  split <;> rfl

theorem queryStep_scheme (cfg : NormCfg) (u : Url) :
    (queryStep cfg u).scheme = u.scheme := by
  unfold queryStep; split
  · exact sortQueryStep_scheme u
  · rfl

theorem queryStep_host (cfg : NormCfg) (u : Url) :
    (queryStep cfg u).host = u.host := by
  unfold queryStep; split
  · exact sortQueryStep_host u
  · rfl

theorem queryStep_port (cfg : NormCfg) (u : Url) :
    (queryStep cfg u).port = u.port := by
  unfold queryStep; split
  · exact sortQueryStep_port u
  · rfl

theorem queryStep_path (cfg : NormCfg) (u : Url) :
    (queryStep cfg u).path = u.path := by
  unfold queryStep; split
  · exact sortQueryStep_path u
  · rfl

theorem queryStep_frag (cfg : NormCfg) (u : Url) :
    (queryStep cfg u).frag = u.frag := by
  unfold queryStep; split
  · exact sortQueryStep_frag u
  · rfl

theorem dropTrailingSlash_scheme (u : Url) :
    (dropTrailingSlash u).scheme = u.scheme := by
  unfold dropTrailingSlash; split <;> rfl

theorem dropTrailingSlash_host (u : Url) :
    (dropTrailingSlash u).host = u.host := by
  unfold dropTrailingSlash; split <;> rfl

theorem dropTrailingSlash_port (u : Url) :
    (dropTrailingSlash u).port = u.port := by
  unfold dropTrailingSlash; split <;> rfl

theorem dropTrailingSlash_query (u : Url) :
    (dropTrailingSlash u).query = u.query := by
  unfold dropTrailingSlash; split <;> rfl

theorem dropTrailingSlash_frag (u : Url) :
    (dropTrailingSlash u).frag = u.frag := by
  unfold dropTrailingSlash; split <;> rfl

theorem transform_scheme (cfg : NormCfg) (u : Url) :
    (transform cfg u).scheme = (schemeStep cfg u).scheme := by
  unfold transform
  rw [show ({ dropTrailingSlash (queryStep cfg (portStep cfg (schemeStep cfg u)))
      with frag := none } : Url).scheme =
    (dropTrailingSlash (queryStep cfg (portStep cfg (schemeStep cfg u)))).scheme
    from rfl]
  rw [dropTrailingSlash_scheme, queryStep_scheme, portStep_scheme]

theorem transform_port (cfg : NormCfg) (u : Url) :
    (transform cfg u).port = (portStep cfg (schemeStep cfg u)).port := by
  unfold transform
  rw [show ({ dropTrailingSlash (queryStep cfg (portStep cfg (schemeStep cfg u)))
      with frag := none } : Url).port =
    (dropTrailingSlash (queryStep cfg (portStep cfg (schemeStep cfg u)))).port
    from rfl]
  rw [dropTrailingSlash_port, queryStep_port]

theorem transform_query (cfg : NormCfg) (u : Url) :
    (transform cfg u).query = (queryStep cfg (portStep cfg (schemeStep cfg u))).query := by
  unfold transform
  rw [show ({ dropTrailingSlash (queryStep cfg (portStep cfg (schemeStep cfg u)))
      with frag := none } : Url).query =
    (dropTrailingSlash (queryStep cfg (portStep cfg (schemeStep cfg u)))).query
    from rfl]
  rw [dropTrailingSlash_query]

theorem transform_path (cfg : NormCfg) (u : Url) :
    (transform cfg u).path = (dropTrailingSlash u).path := by
  unfold transform
  rw [show ({ dropTrailingSlash (queryStep cfg (portStep cfg (schemeStep cfg u)))
      with frag := none } : Url).path =
    (dropTrailingSlash (queryStep cfg (portStep cfg (schemeStep cfg u)))).path
    from rfl]
  unfold dropTrailingSlash
  rw [queryStep_path, portStep_path, schemeStep_path]
  split
  · rfl
  · rw [queryStep_path, portStep_path, schemeStep_path]

theorem transform_frag (cfg : NormCfg) (u : Url) :
    (transform cfg u).frag = none := rfl

/-! ## Well-formedness of the transformed URL -/

theorem wellFormed_parts {u : Url} : u.wellFormed = true ↔
    (u.scheme = "http".data ∨ u.scheme = "https".data) ∧
    u.host ≠ [] ∧ u.host.all isHostChar = true ∧
    (match u.port with
     | none => True
     | some p => p ≠ [] ∧ p.all Char.isDigit = true ∧ p.head? ≠ some '0' ∧
         p ≠ defaultPort u.scheme) ∧
    u.path ≠ [] ∧ u.path.head? = some '/' ∧ u.path.all isPathChar = true ∧
    (match u.query with | none => True | some q => q.all isQueryChar = true) ∧
    (match u.frag with | none => True | some f => f.all isFragChar = true) := by
  obtain ⟨scheme, host, port, path, q, f⟩ := u
  cases port <;> cases q <;> cases f <;>
    simp [Url.wellFormed, List.isEmpty_iff, and_assoc]

theorem mem_joinC {sep : Char} {segs : List (List Char)} {c : Char}
    (h : c ∈ joinC sep segs) : c = sep ∨ ∃ s ∈ segs, c ∈ s := by
  induction segs with
  | nil => cases h
  | cons s ss ih =>
    cases ss with
    | nil =>
      exact Or.inr ⟨s, List.mem_singleton_self _, by simpa [joinC] using h⟩
    | cons s2 ss2 =>
      rw [show joinC sep (s :: s2 :: ss2) = s ++ sep :: joinC sep (s2 :: ss2)
        from rfl] at h
      rcases List.mem_append.mp h with h | h
      · exact Or.inr ⟨s, List.mem_cons_self _ _, h⟩
      · rcases List.mem_cons.mp h with h | h
        · exact Or.inl h
        · rcases ih h with h | ⟨t, ht, hct⟩
          · exact Or.inl h
          · exact Or.inr ⟨t, List.mem_cons_of_mem _ ht, hct⟩

theorem parseParams_chars {q : List Char} (hq : q.all isQueryChar = true) :
    ∀ kv ∈ parseParams q,
      (∀ c ∈ kv.1, isQueryChar c = true) ∧ (∀ c ∈ kv.2, isQueryChar c = true) := by
  intro kv hkv
  simp only [parseParams, List.mem_map, List.mem_filter] at hkv
  obtain ⟨seg, ⟨hseg, _⟩, hpair⟩ := hkv
  subst hpair
  constructor
  · intro c hc
    exact List.all_eq_true.mp hq c
      (mem_of_mem_splitOnC hseg (mem_takeWhile hc).1)
  · intro c hc
    exact List.all_eq_true.mp hq c
      (mem_of_mem_splitOnC hseg (mem_dropWhile (mem_of_mem_tail hc)))

theorem paramsToString_all {l : List (List Char × List Char)}
    (h : ∀ kv ∈ l, (∀ c ∈ kv.1, isQueryChar c = true) ∧
        (∀ c ∈ kv.2, isQueryChar c = true)) :
    (paramsToString l).all isQueryChar = true := by
  refine List.all_eq_true.mpr ?_
  intro c hc
  rcases mem_joinC hc with h1 | ⟨s, hs, hcs⟩
  · subst h1; decide
  · simp only [List.mem_map] at hs
    obtain ⟨⟨k, v⟩, hkv, hseg⟩ := hs
    subst hseg
    rcases List.mem_append.mp hcs with h2 | h2
    · exact (h _ hkv).1 c h2
    · rcases List.mem_cons.mp h2 with h2 | h2
      · subst h2; decide
      · exact (h _ hkv).2 c h2

theorem upgradeHttps_wf {u : Url} (h : u.wellFormed = true) :
    (upgradeHttps u).wellFormed = true := by
  rw [wellFormed_parts] at h ⊢
  obtain ⟨_, hh1, hh2, hp, hp1, hp2, hp3, hq, hf⟩ := h
  refine ⟨Or.inr rfl, hh1, hh2, ?_, hp1, hp2, hp3, hq, hf⟩
  simp only [upgradeHttps]
  by_cases h443 : u.port = some ("443".data)
  · rw [if_pos h443]; trivial
  · rw [if_neg h443]
    rcases hu : u.port with _ | p
    · trivial
    · rw [hu] at hp h443
      obtain ⟨hq1, hq2, hq3, _⟩ := hp
      refine ⟨hq1, hq2, hq3, ?_⟩
      intro hped
      apply h443
      rw [hped]
      rfl

theorem schemeStep_wf {cfg : NormCfg} {u : Url} (h : u.wellFormed = true) :
    (schemeStep cfg u).wellFormed = true := by
  unfold schemeStep
  split
  · exact upgradeHttps_wf h
  · exact h

theorem setPreferPort_wf {p : List Char} {u : Url} (h : u.wellFormed = true)
    (hp1 : p ≠ []) (hp2 : p.all Char.isDigit = true) (hp3 : p.head? ≠ some '0') :
    (setPreferPort p u).wellFormed = true := by
  rw [wellFormed_parts] at h ⊢
  obtain ⟨h1, h2, h3, _, h5, h6, h7, h8, h9⟩ := h
  refine ⟨h1, h2, h3, ?_, h5, h6, h7, h8, h9⟩
  simp only [setPreferPort]
  by_cases hdef : p = defaultPort u.scheme
  · rw [if_pos hdef]; trivial
  · rw [if_neg hdef]
    exact ⟨hp1, hp2, hp3, hdef⟩

theorem portStep_wf {cfg : NormCfg} {u : Url} (hcfg : cfg.wellFormed = true)
    (h : u.wellFormed = true) : (portStep cfg u).wellFormed = true := by
  unfold portStep
  split
  · rename_i p hp
    split
    · have hcfg2 := hcfg
      unfold NormCfg.wellFormed at hcfg2
      rw [hp] at hcfg2
      simp only [Bool.and_eq_true, Bool.not_eq_true', List.isEmpty_eq_false,
        List.isEmpty_iff, beq_eq_false_iff_ne, ne_eq] at hcfg2
      exact setPreferPort_wf h hcfg2.1.1 hcfg2.1.2 (by simpa using hcfg2.2)
    · exact h
  · exact h

theorem sortQueryStep_wf {u : Url} (h : u.wellFormed = true) :
    (sortQueryStep u).wellFormed = true := by
  rw [wellFormed_parts] at h
  obtain ⟨h1, h2, h3, h4, h5, h6, h7, h8, h9⟩ := h
  unfold sortQueryStep
  split
  · rw [wellFormed_parts]
    exact ⟨h1, h2, h3, h4, h5, h6, h7, h8, h9⟩
  · rename_i q hq
    rw [hq] at h8
    rw [wellFormed_parts]
    refine ⟨h1, h2, h3, h4, h5, h6, h7, ?_, h9⟩
    show (match (if (paramsToString (sortParams (parseParams q))).isEmpty = true
        then none
        else some (paramsToString (sortParams (parseParams q)))) with
      | none => True
      | some qs => qs.all isQueryChar = true)
    by_cases hse : (paramsToString (sortParams (parseParams q))).isEmpty = true
    · rw [if_pos hse]
      trivial
    · rw [if_neg hse]
      exact paramsToString_all
        (fun kv hkv => parseParams_chars h8 kv (mem_sortParams hkv))

theorem queryStep_wf {cfg : NormCfg} {u : Url} (h : u.wellFormed = true) :
    (queryStep cfg u).wellFormed = true := by
  unfold queryStep
  split
  · exact sortQueryStep_wf h
  · exact h

theorem dropTrailingSlash_wf {u : Url} (h : u.wellFormed = true) :
    (dropTrailingSlash u).wellFormed = true := by
  rw [wellFormed_parts] at h
  obtain ⟨h1, h2, h3, h4, h5, h6, h7, h8, h9⟩ := h
  unfold dropTrailingSlash
  split
  · rename_i hcond
    obtain ⟨hne, hlast⟩ := hcond
    rw [wellFormed_parts]
    refine ⟨h1, h2, h3, h4, ?_, ?_, ?_, h8, h9⟩
    · cases hpath : u.path with
      | nil => exact absurd hpath h5
      | cons c t =>
        cases t with
        | nil =>
          exfalso
          apply hne
          rw [hpath] at h6 ⊢
          simp only [List.head?_cons, Option.some.injEq] at h6
          subst h6
          rfl
        | cons c2 t2 =>
          simp [List.dropLast]
    · cases hpath : u.path with
      | nil => exact absurd hpath h5
      | cons c t =>
        cases t with
        | nil =>
          exfalso
          apply hne
          rw [hpath] at h6 ⊢
          simp only [List.head?_cons, Option.some.injEq] at h6
          subst h6
          rfl
        | cons c2 t2 =>
          rw [hpath] at h6
          simp only [List.head?_cons, Option.some.injEq] at h6
          subst h6
          simp [List.dropLast]
    · refine List.all_eq_true.mpr ?_
      intro c hc
      exact List.all_eq_true.mp h7 c ((List.dropLast_sublist _).subset hc)
  · rw [wellFormed_parts]
    exact ⟨h1, h2, h3, h4, h5, h6, h7, h8, h9⟩

theorem clearFrag_wf {u : Url} (h : u.wellFormed = true) :
    ({ u with frag := none } : Url).wellFormed = true := by
  rw [wellFormed_parts] at h
  obtain ⟨h1, h2, h3, h4, h5, h6, h7, h8, _⟩ := h
  rw [wellFormed_parts]
  exact ⟨h1, h2, h3, h4, h5, h6, h7, h8, trivial⟩

theorem transform_wf {cfg : NormCfg} {u : Url} (hcfg : cfg.wellFormed = true)
    (h : u.wellFormed = true) : (transform cfg u).wellFormed = true := by
  unfold transform
  exact clearFrag_wf (dropTrailingSlash_wf (queryStep_wf (portStep_wf hcfg
    (schemeStep_wf h))))

/-! ## Idempotence of the normalization pipeline -/

theorem eta_port {u : Url} (h : u.port = none) :
    ({ u with port := none } : Url) = u := by
  obtain ⟨s1, h1, po, pa, q1, f1⟩ := u
  simp only at h
  subst h
  rfl

theorem eta_query {u : Url} {x : Option (List Char)} (h : u.query = x) :
    ({ u with query := x } : Url) = u := by
  obtain ⟨s1, h1, po, pa, q1, f1⟩ := u
  simp only at h
  subst h
  rfl

theorem eta_frag {u : Url} (h : u.frag = none) :
    ({ u with frag := none } : Url) = u := by
  obtain ⟨s1, h1, po, pa, q1, f1⟩ := u
  simp only at h
  subst h
  rfl

theorem portStep_eq_some {cfg : NormCfg} {p : List Char} (u : Url)
    (h : cfg.preferPort = some p) :
    portStep cfg u = if u.port = none then setPreferPort p u else u := by
  obtain ⟨ph, pp, pq⟩ := cfg
  simp only at h
  subst h
  rfl

theorem portStep_eq_none {cfg : NormCfg} (u : Url)
    (h : cfg.preferPort = none) : portStep cfg u = u := by
  obtain ⟨ph, pp, pq⟩ := cfg
  simp only at h
  subst h
  rfl

theorem sortQueryStep_some {u : Url} {q : List Char} (h : u.query = some q) :
    sortQueryStep u = { u with query :=
      (if (paramsToString (sortParams (parseParams q))).isEmpty = true then none
       else some (paramsToString (sortParams (parseParams q)))) } := by
  obtain ⟨s1, h1, po, pa, qq, f1⟩ := u
  simp only at h
  subst h
  rfl

theorem searchNonempty_some {u : Url} {q : List Char} (h : u.query = some q) :
    searchNonempty u = !q.isEmpty := by
  obtain ⟨s1, h1, po, pa, qq, f1⟩ := u
  simp only at h
  subst h
  rfl

theorem searchNonempty_none {u : Url} (h : u.query = none) :
    searchNonempty u = false := by
  obtain ⟨s1, h1, po, pa, qq, f1⟩ := u
  simp only at h
  subst h
  rfl

theorem dropTrailingSlash_path (u : Url) :
    (dropTrailingSlash u).path =
      if u.path ≠ ['/'] ∧ u.path.getLast? = some '/' then u.path.dropLast
      else u.path := by
  unfold dropTrailingSlash
  split <;> rfl

theorem schemeStep_transform (cfg : NormCfg) (u : Url) :
    schemeStep cfg (transform cfg u) = transform cfg u := by
  have hs : (transform cfg u).scheme = (schemeStep cfg u).scheme :=
    transform_scheme cfg u
  by_cases hc : (cfg.preferHttps && u.scheme == "http".data) = true
  · have hsch : (transform cfg u).scheme = "https".data := by
      rw [hs]
      unfold schemeStep
      rw [if_pos hc]
      rfl
    have hbeq : (("https".data : List Char) == "http".data) = false := by decide
    unfold schemeStep
    rw [if_neg (by rw [hsch, hbeq]; simp)]
  · have hsch : (transform cfg u).scheme = u.scheme := by
      rw [hs]
      unfold schemeStep
      rw [if_neg hc]
    unfold schemeStep
    rw [if_neg (by rw [hsch]; exact hc)]

theorem portStep_transform (cfg : NormCfg) (u : Url) :
    portStep cfg (transform cfg u) = transform cfg u := by
  have hp : (transform cfg u).port = (portStep cfg (schemeStep cfg u)).port :=
    transform_port cfg u
  have hsch : (transform cfg u).scheme = (schemeStep cfg u).scheme :=
    transform_scheme cfg u
  cases hpp : cfg.preferPort with
  | none => exact portStep_eq_none _ hpp
  | some p =>
    rw [portStep_eq_some _ hpp]
    by_cases hport : (transform cfg u).port = none
    · rw [if_pos hport]
      have hofp : (portStep cfg (schemeStep cfg u)).port = none := by
        rw [← hp]; exact hport
      have hdef : p = defaultPort (schemeStep cfg u).scheme := by
        by_contra hne
        rw [portStep_eq_some _ hpp] at hofp
        by_cases hwp : (schemeStep cfg u).port = none
        · rw [if_pos hwp] at hofp
          unfold setPreferPort at hofp
          simp only at hofp
          rw [if_neg hne] at hofp
          cases hofp
        · rw [if_neg hwp] at hofp
          exact hwp hofp
      unfold setPreferPort
      rw [show defaultPort (transform cfg u).scheme =
            defaultPort (schemeStep cfg u).scheme by rw [hsch]]
      rw [if_pos hdef]
      exact eta_port hport
    · rw [if_neg hport]

theorem sortParams_clean {q : List Char} :
    paramsClean (sortParams (parseParams q)) :=
  fun kv hkv => parseParams_clean q kv (mem_sortParams hkv)

theorem queryStep_transform (cfg : NormCfg) (u : Url) :
    queryStep cfg (transform cfg u) = transform cfg u := by
  have hq : (transform cfg u).query =
      (queryStep cfg (portStep cfg (schemeStep cfg u))).query :=
    transform_query cfg u
  unfold queryStep
  by_cases hc : (!cfg.preserveQueryOrder && searchNonempty (transform cfg u)) = true
  · rw [if_pos hc]
    rw [Bool.and_eq_true] at hc
    obtain ⟨hpres, hsn⟩ := hc
    rcases hv : (transform cfg u).query with _ | s
    · rw [searchNonempty_none hv] at hsn
      cases hsn
    · have hsne : s ≠ [] := by
        rw [searchNonempty_some hv] at hsn
        simpa [List.isEmpty_iff] using hsn
      have hs : ∃ q0, s = paramsToString (sortParams (parseParams q0)) := by
        rw [hv] at hq
        unfold queryStep at hq
        split at hq
        · rename_i hc2
          rw [Bool.and_eq_true] at hc2
          obtain ⟨_, hsn2⟩ := hc2
          rcases hw2 : (portStep cfg (schemeStep cfg u)).query with _ | q0
          · rw [searchNonempty_none hw2] at hsn2
            cases hsn2
          · rw [sortQueryStep_some hw2] at hq
            simp only at hq
            split at hq
            · cases hq
            · exact ⟨q0, Option.some.inj hq⟩
        · rename_i hc2
          exfalso
          rcases hw2 : (portStep cfg (schemeStep cfg u)).query with _ | q0
          · rw [hw2] at hq
            cases hq
          · rw [hw2] at hq
            obtain rfl : q0 = s := Option.some.inj hq.symm
            apply hc2
            rw [Bool.and_eq_true]
            refine ⟨hpres, ?_⟩
            rw [searchNonempty_some hw2]
            simpa [List.isEmpty_iff] using hsne
      obtain ⟨q0, hs0⟩ := hs
      rw [sortQueryStep_some hv]
      have hroundtrip : parseParams s = sortParams (parseParams q0) := by
        rw [hs0]
        exact parseParams_paramsToString sortParams_clean
      have hsort2 : sortParams (parseParams s) = parseParams s := by
        rw [hroundtrip]
        exact sortParams_of_sorted (sortParams_sorted _)
      have hfix : paramsToString (sortParams (parseParams s)) = s := by
        rw [hsort2, hroundtrip, ← hs0]
      rw [hfix]
      rw [if_neg (by simpa [List.isEmpty_iff] using hsne)]
      exact eta_query hv
  · rw [if_neg hc]

theorem transform_idem {cfg : NormCfg} {u : Url}
    (hslash : slashSafe u.path = true) :
    transform cfg (transform cfg u) = transform cfg u := by
  have hpath : (transform cfg u).path = (dropTrailingSlash u).path :=
    transform_path cfg u
  have hstable : dropTrailingSlash (transform cfg u) = transform cfg u := by
    unfold dropTrailingSlash
    rw [if_neg ?hcond]
    case hcond =>
      rintro ⟨hne, hlast⟩
      rw [hpath, dropTrailingSlash_path] at hne hlast
      by_cases hc0 : u.path ≠ ['/'] ∧ u.path.getLast? = some '/'
      · rw [if_pos hc0] at hne hlast
        unfold slashSafe at hslash
        rw [if_pos hc0.2, if_pos hlast] at hslash
        exact hne (by simpa using hslash)
      · rw [if_neg hc0] at hne hlast
        exact hc0 ⟨hne, hlast⟩
  conv_lhs => rw [transform]
  rw [schemeStep_transform, portStep_transform, queryStep_transform, hstable]
  exact eta_frag rfl

/-! ## Claim C7: idempotence of `normalizeUrl` -/

/-- C7 counterexample: `normalizeUrl` is NOT idempotent as claimed.  On
`http://ex/a//` (which normalizes successfully), the trailing-slash step of
`normalizeUrl` strips only one slash (`pathname.slice(0, -1)`), so the first
application yields `http://ex/a/` and a second application strips again,
yielding `http://ex/a`. -/
theorem c7_normalize_not_idempotent_cex :
    (normalizeUrl ⟨false, none, false⟩ "http://ex/a//").isSome = true ∧
    (normalizeUrl ⟨false, none, false⟩ "http://ex/a//").bind
        (normalizeUrl ⟨false, none, false⟩) ≠
      normalizeUrl ⟨false, none, false⟩ "http://ex/a//" := by
  constructor
  · decide
  · decide

/-- C7 (amended): `normalizeUrl` is idempotent for every successfully parsed
input whose path does not end in two consecutive slashes (beyond the bare
`//`); a second application can strip one more trailing slash otherwise.  The
seed configuration is well-formed (its preferred port, when present, is a
canonical port string). -/
theorem c7_normalize_idempotent_amended (cfg : NormCfg) (s : String) (u : Url)
    (hcfg : cfg.wellFormed = true) (hu : parseUrl s.data = some u)
    (hslash : slashSafe u.path = true) :
    (normalizeUrl cfg s).bind (normalizeUrl cfg) = normalizeUrl cfg s := by
  have hwf := transform_wf (u := u) hcfg (parseUrl_wf hu)
  unfold normalizeUrl
  rw [hu]
  simp only [Option.map_some', Option.some_bind]
  rw [parseUrl_render hwf]
  simp only [Option.map_some']
  rw [transform_idem hslash]

/-- Witness for C7 (amended) at `http://ex/p/` with no preferences set. -/
theorem c7_normalize_idempotent_amended_witness :
    (normalizeUrl ⟨false, none, false⟩ "http://ex/p/").bind
        (normalizeUrl ⟨false, none, false⟩) =
      normalizeUrl ⟨false, none, false⟩ "http://ex/p/" :=
  c7_normalize_idempotent_amended ⟨false, none, false⟩ "http://ex/p/"
    ⟨"http".data, "ex".data, none, "/p/".data, none, none⟩
    (by decide) (by decide) (by decide)

/-! ## Claim C5: retry/error classification of HTTP responses -/

/-- C5: whenever `fetchWithRetry` actually receives an HTTP response (the
cache probe missed and the request did not throw), it returns Retry exactly
when the status is one of 408, 429, 500, 502, 503, 504 and `attempts <
maxRetries`; in every other non-ok case (status < 200 or ≥ 300) it returns
Error `"HTTP <status>"` — in particular a transient status with exhausted
attempts yields that Error. -/
theorem c5_response_classification
    (net : String → NetResult) (hash : String → String) (ts : String)
    (writeOk bodyWriteOk : Bool) (cacheCfg : Option CacheDirs) (opts : FetchOpts)
    (url : String) (attempts : Nat)
    (canHttp canNoPort triedHttp triedNoPort : Bool)
    (fs : Fs) (st : Nat) (ct body : String)
    (hmiss : (cacheProbe cacheCfg hash bodyWriteOk fs url).1 = none)
    (hnet : net url = NetResult.response st ct body) :
    ((fetchWithRetry net hash ts writeOk bodyWriteOk cacheCfg opts url attempts
        canHttp canNoPort triedHttp triedNoPort fs).1 =
      FetchResult.retry ("HTTP " ++ toString st) ↔
      st ∈ transientCodes ∧ attempts < opts.maxRetries) ∧
    (¬(st ∈ transientCodes ∧ attempts < opts.maxRetries) → respOk st = false →
      (fetchWithRetry net hash ts writeOk bodyWriteOk cacheCfg opts url attempts
        canHttp canNoPort triedHttp triedNoPort fs).1 =
      FetchResult.error ("HTTP " ++ toString st)) := by
  rcases hpc : cacheProbe cacheCfg hash bodyWriteOk fs url with ⟨o, fs1⟩
  rw [hpc] at hmiss
  simp only at hmiss
  subst hmiss
  unfold fetchWithRetry fetchAux
  simp only [hpc, hnet]
  by_cases hretry : st ∈ transientCodes ∧ attempts < opts.maxRetries
  · rw [if_pos hretry]
    exact ⟨⟨fun _ => hretry, fun _ => rfl⟩, fun hn _ => absurd hretry hn⟩
  · rw [if_neg hretry]
    constructor
    · constructor
      · intro heq
        by_cases hok : respOk st = false
        · rw [if_pos (by rw [hok]; rfl)] at heq
          cases heq
        · rw [if_neg (by simp [Bool.not_eq_true] at hok; rw [hok]; simp)] at heq
          cases heq
      · intro h; exact absurd h hretry
    · intro _ hnok
      rw [if_pos (by rw [hnok]; rfl)]

/-- Witness for C5 on a concrete 503 response with fresh attempts. -/
theorem c5_response_classification_witness :
    ((fetchWithRetry (fun _ => NetResult.response 503 "text/html" "b")
        (fun s => s) "T" true true none ⟨3, none⟩ "https://ex/" 0 true true
        false false emptyFs).1 =
      FetchResult.retry ("HTTP " ++ toString 503) ↔
      503 ∈ transientCodes ∧ 0 < (⟨3, none⟩ : FetchOpts).maxRetries) ∧
    (¬(503 ∈ transientCodes ∧ 0 < (⟨3, none⟩ : FetchOpts).maxRetries) →
      respOk 503 = false →
      (fetchWithRetry (fun _ => NetResult.response 503 "text/html" "b")
        (fun s => s) "T" true true none ⟨3, none⟩ "https://ex/" 0 true true
        false false emptyFs).1 =
      FetchResult.error ("HTTP " ++ toString 503)) :=
  c5_response_classification (fun _ => NetResult.response 503 "text/html" "b")
    (fun s => s) "T" true true none ⟨3, none⟩ "https://ex/" 0 true true
    false false emptyFs 503 "text/html" "b" rfl rfl

/-! ## Single-step unfolding lemmas for the fetcher -/

theorem fetchAux_port_fallback (net : String → NetResult) (hash : String → String)
    (ts : String) (writeOk bodyWriteOk : Bool) (cacheCfg : Option CacheDirs)
    (opts : FetchOpts) (fuel' : Nat) (url : String) (attempts : Nat)
    (canHttp triedHttp : Bool) (fs fs1 : Fs) (msg : String)
    (hprobe : cacheProbe cacheCfg hash bodyWriteOk fs url = (none, fs1))
    (hnet : net url = NetResult.transportError msg)
    (hpm : portMatches opts url = true) :
    fetchAux net hash ts writeOk bodyWriteOk cacheCfg opts (fuel' + 1) url
        attempts canHttp true triedHttp false fs =
      ((fetchAux net hash ts writeOk bodyWriteOk cacheCfg opts fuel'
          (stripPortUrl url) attempts canHttp true triedHttp true fs1).1,
        url :: (fetchAux net hash ts writeOk bodyWriteOk cacheCfg opts fuel'
          (stripPortUrl url) attempts canHttp true triedHttp true fs1).2.1,
        (fetchAux net hash ts writeOk bodyWriteOk cacheCfg opts fuel'
          (stripPortUrl url) attempts canHttp true triedHttp true fs1).2.2) := by
  conv_lhs => rw [fetchAux, hprobe, hnet]
  simp only [Bool.not_false, Bool.true_and]
  rw [if_pos hpm]

theorem fetchAux_http_fallback (net : String → NetResult) (hash : String → String)
    (ts : String) (writeOk bodyWriteOk : Bool) (cacheCfg : Option CacheDirs)
    (opts : FetchOpts) (fuel' : Nat) (url : String) (attempts : Nat)
    (canNoPort triedNoPort : Bool) (fs fs1 : Fs) (msg : String)
    (hprobe : cacheProbe cacheCfg hash bodyWriteOk fs url = (none, fs1))
    (hnet : net url = NetResult.transportError msg)
    (hng : (!triedNoPort && canNoPort && portMatches opts url) = false)
    (hsw : startsWithStr url "https://" = true) :
    fetchAux net hash ts writeOk bodyWriteOk cacheCfg opts (fuel' + 1) url
        attempts true canNoPort false triedNoPort fs =
      ((fetchAux net hash ts writeOk bodyWriteOk cacheCfg opts fuel'
          (toHttpUrl url) attempts true canNoPort true triedNoPort fs1).1,
        url :: (fetchAux net hash ts writeOk bodyWriteOk cacheCfg opts fuel'
          (toHttpUrl url) attempts true canNoPort true triedNoPort fs1).2.1,
        (fetchAux net hash ts writeOk bodyWriteOk cacheCfg opts fuel'
          (toHttpUrl url) attempts true canNoPort true triedNoPort fs1).2.2) := by
  conv_lhs => rw [fetchAux, hprobe, hnet]
  simp only [Bool.not_false, Bool.true_and]
  rw [if_neg (by rw [hng]; simp)]
  rw [if_pos hsw]

/-! ## Claim C3: authority-fallback request order in scenario S3 -/

/-- C3 counterexample: in scenario S3 (entry `https://ex:8080/x`, both
fallback flags set, preferred port 8080), when every request transport-fails
the three requests issued are `https://ex:8080/x`, `https://ex/x`,
`http://ex/x` — the third request is `http://ex/x`, because the https→http
fallback recurses on the already-port-stripped URL, not `http://ex:8080/x` as
claimed. -/
theorem c3_third_request_cex :
    ((fetchWithRetry (fun _ => NetResult.transportError "connection refused")
        (fun s => s) "T" true true none ⟨3, some ("8080".data)⟩
        "https://ex:8080/x" 0 true true false false emptyFs).2.1 =
      ["https://ex:8080/x", "https://ex/x", "http://ex/x"]) ∧
    ("http://ex/x" : String) ≠ "http://ex:8080/x" := by
  constructor
  · rfl
  · decide

/-- C3 (amended): in scenario S3, if the first request transport-fails the
second request is `https://ex/x` (port stripped), and if that also
transport-fails the third and last request is `http://ex/x` (scheme
downgraded on the port-stripped URL); exactly three requests are issued
before the call returns. -/
theorem c3_fallback_request_order_amended
    (net : String → NetResult) (hash : String → String) (ts : String)
    (writeOk bodyWriteOk : Bool) (maxR attempts : Nat) (fs : Fs) (e1 e2 : String)
    (h1 : net "https://ex:8080/x" = NetResult.transportError e1)
    (h2 : net "https://ex/x" = NetResult.transportError e2) :
    (fetchWithRetry net hash ts writeOk bodyWriteOk none
        ⟨maxR, some ("8080".data)⟩ "https://ex:8080/x" attempts true true
        false false fs).2.1 =
      ["https://ex:8080/x", "https://ex/x", "http://ex/x"] := by
  have hpm : portMatches (⟨maxR, some ("8080".data)⟩ : FetchOpts)
      "https://ex:8080/x" = true := rfl
  have hstrip : stripPortUrl "https://ex:8080/x" = "https://ex/x" := rfl
  have hsw : startsWithStr "https://ex/x" "https://" = true := rfl
  have hhttp : toHttpUrl "https://ex/x" = "http://ex/x" := rfl
  unfold fetchWithRetry
  rw [show fetchAux net hash ts writeOk bodyWriteOk none
        (⟨maxR, some ("8080".data)⟩ : FetchOpts)
        ((if false then 0 else 1) + (if false then 0 else 1))
        "https://ex:8080/x" attempts true true false false fs =
      fetchAux net hash ts writeOk bodyWriteOk none
        (⟨maxR, some ("8080".data)⟩ : FetchOpts) 2
        "https://ex:8080/x" attempts true true false false fs from rfl]
  rw [show (2 : Nat) = 1 + 1 from rfl]
  rw [fetchAux_port_fallback net hash ts writeOk bodyWriteOk none
        ⟨maxR, some ("8080".data)⟩ 1 "https://ex:8080/x" attempts true false
        fs fs e1 rfl h1 hpm]
  simp only [hstrip, List.cons.injEq, true_and]
  rw [show (1 : Nat) = 0 + 1 from rfl]
  rw [fetchAux_http_fallback net hash ts writeOk bodyWriteOk none
        ⟨maxR, some ("8080".data)⟩ 0 "https://ex/x" attempts true true
        fs fs e2 rfl h2 rfl hsw]
  simp only [hhttp, List.cons.injEq, true_and]
  rcases hn3 : net "http://ex/x" with ⟨st, ct, b⟩ | m3
  · rw [fetchAux]
    simp only [cacheProbe, hn3]
    split
    · rfl
    · split
      · rfl
      · rfl
  · rw [fetchAux]
    simp only [cacheProbe, hn3]
    split
    · rfl
    · rfl

/-- Witness for C3 (amended): all requests refused, concrete oracle. -/
theorem c3_fallback_request_order_amended_witness :
    (fetchWithRetry (fun _ => NetResult.transportError "refused") (fun s => s)
        "T" true true none ⟨3, some ("8080".data)⟩ "https://ex:8080/x" 0 true
        true false false emptyFs).2.1 =
      ["https://ex:8080/x", "https://ex/x", "http://ex/x"] :=
  c3_fallback_request_order_amended (fun _ => NetResult.transportError "refused")
    (fun s => s) "T" true true 3 0 emptyFs "refused" "refused" rfl rfl

/-! ## Claim C10: the cache key of a fallback fetch -/

theorem cacheGet_miss_snd {dirs : CacheDirs} {hash : String → String} {bw : Bool}
    {fs : Fs} {url : String}
    (h : (cacheGet dirs hash bw fs url).1 = none) :
    (cacheGet dirs hash bw fs url).2 = fs := by
  rcases hc : dirs.cacheDir with _ | d
  · simp only [cacheGet, hc]
  · rcases hf : fs (d, hash url) with _ | _ | raw | r | str <;>
      simp only [cacheGet, hc, hf] at h ⊢
    rcases hb : dirs.bodiesDir with _ | bd <;> simp only [hb] at h <;> simp at h

theorem cacheProbe_miss {dirs : CacheDirs} {hash : String → String} {bw : Bool}
    {fs fs1 : Fs} {url : String}
    (h : cacheProbe (some dirs) hash bw fs url = (none, fs1)) : fs1 = fs := by
  have hg : cacheGet dirs hash bw fs url = (none, fs1) := h
  have h1 : (cacheGet dirs hash bw fs url).1 = none := by rw [hg]
  have h2 := cacheGet_miss_snd h1
  rw [hg] at h2
  exact h2

/-- `HttpCache.set` touches only the slots hashed from the URL it is given:
every slot under a different hash is untouched in every directory. -/
theorem cacheSet_preserves {dirs : CacheDirs} {hash : String → String}
    {ts : String} {w bw : Bool} {fs : Fs} {fu : String} {resp : RespData}
    {x k : String} (hk : k ≠ hash fu) :
    cacheSet dirs hash ts w bw fs fu resp (x, k) = fs (x, k) := by
  unfold cacheSet
  rcases hb : dirs.bodiesDir with _ | bd <;> rcases hc : dirs.cacheDir with _ | d <;>
    simp only [hb, hc] <;> cases w <;> cases bw <;>
    simp [fsWrite, Prod.mk.injEq, hk]

/-- `HttpCache.get` reads only the slot of the probed URL's hash. -/
theorem cacheGet_fst_congr {dirs : CacheDirs} {hash : String → String} {bw : Bool}
    {fs fs2 : Fs} {url : String}
    (h : ∀ x : String, fs2 (x, hash url) = fs (x, hash url)) :
    (cacheGet dirs hash bw fs2 url).1 = (cacheGet dirs hash bw fs url).1 := by
  unfold cacheGet
  rcases hc : dirs.cacheDir with _ | d
  · rfl
  · dsimp only
    rw [h d]
    rcases hf : fs (d, hash url) with _ | _ | raw | r | str <;> try rfl
    rcases hb : dirs.bodiesDir with _ | bd <;> rfl

/-- Any `fetchWithRetry` run that ends in a non-cache success performed
exactly one cache write, keyed by the hash of the URL it actually fetched:
the returned filesystem is the input filesystem with `cacheSet` applied at
the fetched URL (every cache probe along the fallback chain missed, and a
miss leaves the filesystem untouched). -/
theorem fetchAux_success_write (net : String → NetResult)
    (hash : String → String) (ts : String) (writeOk bodyWriteOk : Bool)
    (dirs : CacheDirs) (opts : FetchOpts) :
    ∀ (fuel : Nat) (url : String) (attempts : Nat) (cH cN tH tN : Bool)
      (fs : Fs) (st : Nat) (ct bd fu : String),
      (fetchAux net hash ts writeOk bodyWriteOk (some dirs) opts fuel url
        attempts cH cN tH tN fs).1 = FetchResult.success st ct bd fu false →
      (fetchAux net hash ts writeOk bodyWriteOk (some dirs) opts fuel url
        attempts cH cN tH tN fs).2.2 =
        cacheSet dirs hash ts writeOk bodyWriteOk fs fu ⟨st, ct, bd⟩ := by
  intro fuel
  induction fuel with
  | zero =>
    intro url attempts cH cN tH tN fs st ct bd fu hrun
    rw [fetchAux] at hrun ⊢
    rcases hpc : cacheProbe (some dirs) hash bodyWriteOk fs url with ⟨_ | r, fs1⟩
    · have hfs1 : fs1 = fs := cacheProbe_miss hpc
      subst hfs1
      rw [hpc] at hrun
      try rw [hpc]
      rcases hnet : net url with ⟨st2, ct2, bd2⟩ | msg <;>
        simp only [hnet] at hrun ⊢
      · by_cases htr : st2 ∈ transientCodes ∧ attempts < opts.maxRetries
        · rw [if_pos htr] at hrun
          simp at hrun
        · rw [if_neg htr] at hrun ⊢
          by_cases hok : (!respOk st2) = true
          · rw [if_pos hok] at hrun
            simp at hrun
          · rw [if_neg hok] at hrun ⊢
            simp only [FetchResult.success.injEq] at hrun
            obtain ⟨h1, h2, h3, h4, -⟩ := hrun
            subst h1
            subst h2
            subst h3
            subst h4
            rfl
      · split at hrun <;> simp at hrun
    · rw [hpc] at hrun
      simp at hrun
  | succ fuel ih =>
    intro url attempts cH cN tH tN fs st ct bd fu hrun
    rw [fetchAux] at hrun ⊢
    rcases hpc : cacheProbe (some dirs) hash bodyWriteOk fs url with ⟨_ | r, fs1⟩
    · have hfs1 : fs1 = fs := cacheProbe_miss hpc
      subst hfs1
      rw [hpc] at hrun
      try rw [hpc]
      rcases hnet : net url with ⟨st2, ct2, bd2⟩ | msg <;>
        simp only [hnet] at hrun ⊢
      · by_cases htr : st2 ∈ transientCodes ∧ attempts < opts.maxRetries
        · rw [if_pos htr] at hrun
          simp at hrun
        · rw [if_neg htr] at hrun ⊢
          by_cases hok : (!respOk st2) = true
          · rw [if_pos hok] at hrun
            simp at hrun
          · rw [if_neg hok] at hrun ⊢
            simp only [FetchResult.success.injEq] at hrun
            obtain ⟨h1, h2, h3, h4, -⟩ := hrun
            subst h1
            subst h2
            subst h3
            subst h4
            rfl
      · by_cases hp : (!tN && cN && portMatches opts url) = true
        · rw [if_pos hp] at hrun ⊢
          dsimp only at hrun ⊢
          exact ih (stripPortUrl url) attempts cH cN tH true fs1 st ct bd fu hrun
        · rw [if_neg hp] at hrun ⊢
          by_cases hh : (!tH && cH && startsWithStr url "https://") = true
          · rw [if_pos hh] at hrun ⊢
            dsimp only at hrun ⊢
            exact ih (toHttpUrl url) attempts cH cN true tN fs1 st ct bd fu hrun
          · rw [if_neg hh] at hrun ⊢
            split at hrun <;> simp at hrun
    · rw [hpc] at hrun
      simp at hrun

/-- C10: whenever `fetchWithRetry` returns a non-cache success whose fetched
URL is `fu` — in particular after any chain of authority fallbacks (port
stripped and/or https downgraded to http), `fu` being whatever URL the
recursion actually fetched — the cache record it writes is keyed by
`hash fu`: the returned filesystem is exactly the input filesystem with
`cacheSet` applied at `fu`.  Consequently, when `hash url ≠ hash fu`, every
slot of the original URL `url` is untouched in every directory, and a later
cache probe of `url` (exactly the probe a later `fetchWithRetry` of `url`
performs) returns what it would have returned before this fetch — nothing
from this fetch. -/
theorem c10_fallback_cache_key (net : String → NetResult)
    (hash : String → String) (ts : String) (writeOk bodyWriteOk : Bool)
    (dirs : CacheDirs) (opts : FetchOpts) (url : String) (attempts : Nat)
    (cH cN tH tN : Bool) (fs : Fs) (st : Nat) (ct bd fu : String)
    (hrun : (fetchWithRetry net hash ts writeOk bodyWriteOk (some dirs) opts
        url attempts cH cN tH tN fs).1 = FetchResult.success st ct bd fu false) :
    ((fetchWithRetry net hash ts writeOk bodyWriteOk (some dirs) opts
        url attempts cH cN tH tN fs).2.2 =
      cacheSet dirs hash ts writeOk bodyWriteOk fs fu ⟨st, ct, bd⟩) ∧
    (hash url ≠ hash fu →
      (∀ x : String,
        (fetchWithRetry net hash ts writeOk bodyWriteOk (some dirs) opts
          url attempts cH cN tH tN fs).2.2 (x, hash url) = fs (x, hash url)) ∧
      (cacheGet dirs hash bodyWriteOk
          ((fetchWithRetry net hash ts writeOk bodyWriteOk (some dirs) opts
            url attempts cH cN tH tN fs).2.2) url).1 =
        (cacheGet dirs hash bodyWriteOk fs url).1) := by
  have h1 : (fetchWithRetry net hash ts writeOk bodyWriteOk (some dirs) opts
      url attempts cH cN tH tN fs).2.2 =
      cacheSet dirs hash ts writeOk bodyWriteOk fs fu ⟨st, ct, bd⟩ :=
    fetchAux_success_write net hash ts writeOk bodyWriteOk dirs opts _ url
      attempts cH cN tH tN fs st ct bd fu hrun
  refine ⟨h1, fun hne => ?_⟩
  have hslot : ∀ x : String,
      (fetchWithRetry net hash ts writeOk bodyWriteOk (some dirs) opts
        url attempts cH cN tH tN fs).2.2 (x, hash url) = fs (x, hash url) := by
    intro x
    rw [h1]
    exact cacheSet_preserves hne
  exact ⟨hslot, cacheGet_fst_congr hslot⟩

/-- Witness for C10: both fallbacks fire in sequence (port stripped, then
https downgraded), so the fetched URL is `http://ex/x` while the original is
`https://ex:8080/x`; with the identity hash the record lands under the former
and the original URL's probe sees the untouched (empty) filesystem. -/
theorem c10_fallback_cache_key_witness :
    ((fetchWithRetry
        (fun u => if u = "http://ex/x" then NetResult.response 200 "text/html" "B"
          else NetResult.transportError "refused")
        (fun s => s) "T" true true (some ⟨some "cache", none⟩)
        ⟨3, some ("8080".data)⟩ "https://ex:8080/x" 0 true true
        false false emptyFs).2.2 =
      cacheSet ⟨some "cache", none⟩ (fun s => s) "T" true true emptyFs
        "http://ex/x" ⟨200, "text/html", "B"⟩) ∧
    ((fun s => s : String → String) "https://ex:8080/x" ≠
        (fun s => s : String → String) "http://ex/x" →
      (∀ x : String,
        (fetchWithRetry
          (fun u => if u = "http://ex/x" then NetResult.response 200 "text/html" "B"
            else NetResult.transportError "refused")
          (fun s => s) "T" true true (some ⟨some "cache", none⟩)
          ⟨3, some ("8080".data)⟩ "https://ex:8080/x" 0 true true
          false false emptyFs).2.2
            (x, (fun s => s : String → String) "https://ex:8080/x") =
          emptyFs (x, (fun s => s : String → String) "https://ex:8080/x")) ∧
      (cacheGet ⟨some "cache", none⟩ (fun s => s) true
          ((fetchWithRetry
            (fun u => if u = "http://ex/x" then NetResult.response 200 "text/html" "B"
              else NetResult.transportError "refused")
            (fun s => s) "T" true true (some ⟨some "cache", none⟩)
            ⟨3, some ("8080".data)⟩ "https://ex:8080/x" 0 true true
            false false emptyFs).2.2) "https://ex:8080/x").1 =
        (cacheGet ⟨some "cache", none⟩ (fun s => s) true emptyFs
          "https://ex:8080/x").1) :=
  c10_fallback_cache_key
    (fun u => if u = "http://ex/x" then NetResult.response 200 "text/html" "B"
      else NetResult.transportError "refused")
    (fun s => s) "T" true true ⟨some "cache", none⟩ ⟨3, some ("8080".data)⟩
    "https://ex:8080/x" 0 true true false false emptyFs 200 "text/html" "B"
    "http://ex/x" (by decide)

/-! ## Claim C6: cache round-trip and miss behavior -/

/-- C6: for a cache constructed with a cache directory (and a bodies
directory, if any, distinct from it), after a `set` whose write succeeded,
`get` of the same URL returns a record carrying exactly the response's
status, content type and body (plus the URL and the write timestamp); and
`get` returns nothing when the file for the URL's hash is missing, is
unreadable, or fails to parse as JSON. -/
theorem c6_cache_roundtrip (dirs : CacheDirs) (hash : String → String)
    (d ts u : String) (r : RespData) (bodyWriteOk bodyWriteOk2 : Bool) (fs : Fs)
    (hd : dirs.cacheDir = some d) (hb : dirs.bodiesDir ≠ some d) :
    ((cacheGet dirs hash bodyWriteOk2
        (cacheSet dirs hash ts true bodyWriteOk fs u r) u).1 =
      some ⟨u, ts, r.status, r.contentType, r.body⟩) ∧
    (fs (d, hash u) = FileState.absent → (cacheGet dirs hash bodyWriteOk2 fs u).1 = none) ∧
    (fs (d, hash u) = FileState.unreadable → (cacheGet dirs hash bodyWriteOk2 fs u).1 = none) ∧
    (∀ raw, fs (d, hash u) = FileState.corrupt raw →
      (cacheGet dirs hash bodyWriteOk2 fs u).1 = none) := by
  obtain ⟨cd, bd⟩ := dirs
  simp only at hd hb
  subst hd
  refine ⟨?_, ?_, ?_, ?_⟩
  · show (cacheGet ⟨some d, bd⟩ hash bodyWriteOk2
        (cacheSet ⟨some d, bd⟩ hash ts true bodyWriteOk fs u r) u).1 =
      some ⟨u, ts, r.status, r.contentType, r.body⟩
    have hset : cacheSet ⟨some d, bd⟩ hash ts true bodyWriteOk fs u r
        (d, hash u) =
        FileState.jsonFile ⟨u, ts, r.status, r.contentType, r.body⟩ := by
      simp only [cacheSet]
      rcases bd with _ | b
      · simp [fsWrite]
      · have hdb : ¬((d, hash u) = (b, hash u)) := fun hcon =>
          hb (congrArg some (congrArg Prod.fst hcon).symm)
        by_cases hbo : bodyWriteOk = true <;> simp [hbo, fsWrite, hdb]
    simp only [cacheGet, hset]
    rcases bd with _ | b
    · rfl
    · by_cases hbo2 : bodyWriteOk2 = true <;> simp [hbo2]
  · intro habs
    simp only [cacheGet, habs]
  · intro hunr
    simp only [cacheGet, hunr]
  · intro raw hcor
    simp only [cacheGet, hcor]

/-- Witness for C6 with one-file state and identity hash. -/
theorem c6_cache_roundtrip_witness :
    ((cacheGet ⟨some "cache", some "bodies"⟩ (fun s => s) true
        (cacheSet ⟨some "cache", some "bodies"⟩ (fun s => s) "T" true true
          emptyFs "http://ex/" ⟨200, "text/html", "B"⟩) "http://ex/").1 =
      some ⟨"http://ex/", "T", 200, "text/html", "B"⟩) ∧
    (emptyFs ("cache", (fun (s : String) => s) "http://ex/") = FileState.absent →
      (cacheGet ⟨some "cache", some "bodies"⟩ (fun s => s) true emptyFs
        "http://ex/").1 = none) ∧
    (emptyFs ("cache", (fun (s : String) => s) "http://ex/") = FileState.unreadable →
      (cacheGet ⟨some "cache", some "bodies"⟩ (fun s => s) true emptyFs
        "http://ex/").1 = none) ∧
    (∀ raw, emptyFs ("cache", (fun (s : String) => s) "http://ex/") = FileState.corrupt raw →
      (cacheGet ⟨some "cache", some "bodies"⟩ (fun s => s) true emptyFs
        "http://ex/").1 = none) :=
  c6_cache_roundtrip ⟨some "cache", some "bodies"⟩ (fun s => s) "cache" "T"
    "http://ex/" ⟨200, "text/html", "B"⟩ true true emptyFs rfl (by decide)

/-! ## Engine lemmas: `enqueueE` -/

theorem mem_addEdge_self (refs : List (String × String)) (t s : String) :
    (t, s) ∈ addEdge refs t s := by
  unfold addEdge
  split
  · assumption
  · simp

theorem mem_addEdge_mono {refs : List (String × String)} {e : String × String}
    (h : e ∈ refs) (t s : String) : e ∈ addEdge refs t s := by
  unfold addEdge
  split
  · exact h
  · exact List.mem_append_left _ h

theorem mem_keys_mapSet {m : List (String × String)} {k v u : String}
    (h : u ∈ mapKeys (mapSet m k v)) : u ∈ mapKeys m ∨ u = k := by
  unfold mapSet at h
  split at h
  · left
    simp only [mapKeys, List.mem_map] at h ⊢
    obtain ⟨kv, hkv, hu⟩ := h
    obtain ⟨kv0, hkv0, hkv1⟩ := hkv
    by_cases hk : kv0.1 = k
    · rw [if_pos hk] at hkv1
      subst hkv1
      exact ⟨kv0, hkv0, by simp at hu; rw [← hu, hk]⟩
    · rw [if_neg hk] at hkv1
      subst hkv1
      exact ⟨kv0, hkv0, hu⟩
  · simp only [mapKeys, List.map_append, List.mem_append, List.map_cons] at h
    rcases h with h | h
    · exact Or.inl h
    · simp at h
      exact Or.inr h

theorem mem_keys_mapSet_mono {m : List (String × String)} {k v u : String}
    (h : u ∈ mapKeys m) : u ∈ mapKeys (mapSet m k v) := by
  unfold mapSet
  split
  · simp only [mapKeys, List.mem_map] at h ⊢
    obtain ⟨kv, hkv, hu⟩ := h
    refine ⟨if kv.1 = k then (k, v) else kv, ⟨kv, hkv, rfl⟩, ?_⟩
    by_cases hk : kv.1 = k
    · rw [if_pos hk]
      rw [← hu, hk]
    · rw [if_neg hk]
      exact hu
  · simp only [mapKeys, List.map_append, List.mem_append]
    exact Or.inl h

theorem enqueueE_discovered (cfg : NormCfg) (st : EngineState) (l : Link) :
    (enqueueE cfg st l).discovered = st.discovered := by
  rcases hn : normalizeUrl cfg l.url with _ | norm <;>
    simp only [enqueueE, hn]
  split <;> rfl

theorem enqueueE_failed (cfg : NormCfg) (st : EngineState) (l : Link) :
    (enqueueE cfg st l).failed = st.failed := by
  rcases hn : normalizeUrl cfg l.url with _ | norm <;>
    simp only [enqueueE, hn]
  split <;> rfl

theorem enqueueE_inflight (cfg : NormCfg) (st : EngineState) (l : Link) :
    (enqueueE cfg st l).inflight = st.inflight := by
  rcases hn : normalizeUrl cfg l.url with _ | norm <;>
    simp only [enqueueE, hn]
  split <;> rfl

theorem enqueueE_seen_mono {cfg : NormCfg} {st : EngineState} {l : Link}
    {u : String} (h : u ∈ st.seen) : u ∈ (enqueueE cfg st l).seen := by
  rcases hn : normalizeUrl cfg l.url with _ | norm <;>
    simp only [enqueueE, hn]
  · exact h
  · split
    · exact h
    · exact List.mem_append_left _ h

theorem enqueueE_referrers_mono {cfg : NormCfg} {st : EngineState} {l : Link}
    {e : String × String} (h : e ∈ st.referrers) :
    e ∈ (enqueueE cfg st l).referrers := by
  rcases hn : normalizeUrl cfg l.url with _ | norm <;>
    simp only [enqueueE, hn]
  · exact h
  · rcases hsrc : l.sourceUrl with _ | src <;> simp only [hsrc]
    · split <;> exact h
    · split <;> exact mem_addEdge_mono h _ _

/-- Case analysis of one `enqueue` call: either only referrers change, or a
fresh entry is appended together with its `seen` registration. -/
theorem enqueueE_cases (cfg : NormCfg) (st : EngineState) (l : Link) :
    ((enqueueE cfg st l).seen = st.seen ∧ (enqueueE cfg st l).queue = st.queue) ∨
    (∃ norm, normalizeUrl cfg l.url = some norm ∧ norm ∉ st.seen ∧
      (enqueueE cfg st l).seen = st.seen ++ [norm] ∧
      (enqueueE cfg st l).queue = st.queue ++
        [⟨norm, 0, wasHttpOf l.url,
          wasPortlessOf l.url && !l.cameFromAdditionalHost,
          l.cameFromAdditionalHost, l.isSitemap⟩]) := by
  rcases hn : normalizeUrl cfg l.url with _ | norm <;>
    simp only [enqueueE, hn]
  · exact Or.inl ⟨trivial, trivial⟩
  · by_cases hseen : norm ∈ st.seen
    · rw [if_pos hseen]
      exact Or.inl ⟨rfl, rfl⟩
    · rw [if_neg hseen]
      exact Or.inr ⟨norm, rfl, hseen, rfl, rfl⟩

/-! ## Engine lemmas: the internal invariant -/

/-- Internal induction invariant of the engine: pending (queued or in-flight)
URLs are registered in `seen`, are pairwise distinct, and are not yet settled
(neither discovered nor failed); settled URLs are in `seen` and the two
outcomes are mutually exclusive. -/
structure EngineInv (st : EngineState) : Prop where
  liveSeen : ∀ u ∈ liveUrls st, u ∈ st.seen
  liveNodup : (liveUrls st).Nodup
  liveNotDisc : ∀ u ∈ liveUrls st, u ∉ st.discovered
  liveNotFail : ∀ u ∈ liveUrls st, u ∉ mapKeys st.failed
  discSeen : ∀ u ∈ st.discovered, u ∈ st.seen
  failSeen : ∀ u ∈ mapKeys st.failed, u ∈ st.seen
  disjointDF : ∀ u ∈ st.discovered, u ∉ mapKeys st.failed

theorem engineInv_start : EngineInv engineInit := by
  refine ⟨?_, ?_, ?_, ?_, ?_, ?_, ?_⟩ <;> simp [liveUrls, engineInit, mapKeys]

theorem enqueueE_inv {cfg : NormCfg} {st : EngineState} {l : Link}
    (h : EngineInv st) : EngineInv (enqueueE cfg st l) := by
  rcases enqueueE_cases cfg st l with ⟨hs, hq⟩ | ⟨norm, hn, hns, hs, hq⟩
  · have hlive : liveUrls (enqueueE cfg st l) = liveUrls st := by
      unfold liveUrls
      rw [hq, enqueueE_inflight]
    refine ⟨?_, ?_, ?_, ?_, ?_, ?_, ?_⟩
    · intro u hu
      rw [hlive] at hu
      rw [hs]
      exact h.liveSeen u hu
    · rw [hlive]
      exact h.liveNodup
    · intro u hu
      rw [hlive] at hu
      rw [enqueueE_discovered]
      exact h.liveNotDisc u hu
    · intro u hu
      rw [hlive] at hu
      rw [enqueueE_failed]
      exact h.liveNotFail u hu
    · intro u hu
      rw [enqueueE_discovered] at hu
      rw [hs]
      exact h.discSeen u hu
    · intro u hu
      rw [enqueueE_failed] at hu
      rw [hs]
      exact h.failSeen u hu
    · intro u hu
      rw [enqueueE_discovered] at hu
      rw [enqueueE_failed]
      exact h.disjointDF u hu
  · have hlive : liveUrls (enqueueE cfg st l) =
        (st.queue.map Entry.url ++ [norm]) ++ st.inflight.map Entry.url := by
      unfold liveUrls
      rw [hq, enqueueE_inflight, List.map_append]
      rfl
    have hmem : ∀ u, u ∈ liveUrls (enqueueE cfg st l) →
        u ∈ liveUrls st ∨ u = norm := by
      intro u hu
      rw [hlive] at hu
      rcases List.mem_append.mp hu with hu | hu
      · rcases List.mem_append.mp hu with hu | hu
        · exact Or.inl (List.mem_append_left _ hu)
        · simp at hu
          exact Or.inr hu
      · exact Or.inl (List.mem_append_right _ hu)
    have hnormlive : norm ∉ liveUrls st := fun hmem2 => hns (h.liveSeen _ hmem2)
    refine ⟨?_, ?_, ?_, ?_, ?_, ?_, ?_⟩
    · intro u hu
      rw [hs]
      rcases hmem u hu with hu2 | hu2
      · exact List.mem_append_left _ (h.liveSeen u hu2)
      · subst hu2
        simp
    · rw [hlive, List.append_assoc]
      rw [show ([norm] : List String) ++ st.inflight.map Entry.url =
        norm :: st.inflight.map Entry.url from rfl]
      rw [List.nodup_middle]
      exact List.nodup_cons.mpr ⟨hnormlive, h.liveNodup⟩
    · intro u hu
      rw [enqueueE_discovered]
      rcases hmem u hu with hu2 | hu2
      · exact h.liveNotDisc u hu2
      · subst hu2
        exact fun hd => hns (h.discSeen _ hd)
    · intro u hu
      rw [enqueueE_failed]
      rcases hmem u hu with hu2 | hu2
      · exact h.liveNotFail u hu2
      · subst hu2
        exact fun hd => hns (h.failSeen _ hd)
    · intro u hu
      rw [enqueueE_discovered] at hu
      rw [hs]
      exact List.mem_append_left _ (h.discSeen u hu)
    · intro u hu
      rw [enqueueE_failed] at hu
      rw [hs]
      exact List.mem_append_left _ (h.failSeen u hu)
    · intro u hu
      rw [enqueueE_discovered] at hu
      rw [enqueueE_failed]
      exact h.disjointDF u hu

/-! ## Engine lemmas: step preservation -/

theorem perm_pull_middle (A B C : List String) (a : String) :
    List.Perm (A ++ (B ++ a :: C)) (a :: (A ++ (B ++ C))) := by
  have h : List.Perm ((A ++ B) ++ a :: C) (a :: ((A ++ B) ++ C)) := List.perm_middle
  rwa [List.append_assoc, List.append_assoc] at h

/-- Popping the in-flight entry `e` out of a decomposed state: `e.url` was
registered and unsettled, and the remaining live URLs stay registered,
unsettled, pairwise distinct, and distinct from `e.url`. -/
theorem inv_remove {st : EngineState} {e : Entry} {l1 l2 : List Entry}
    (h : EngineInv st) (hin : st.inflight = l1 ++ e :: l2) :
    e.url ∈ st.seen ∧ e.url ∉ st.discovered ∧ e.url ∉ mapKeys st.failed ∧
    (∀ u ∈ st.queue.map Entry.url ++ (l1 ++ l2).map Entry.url,
      u ∈ st.seen ∧ u ∉ st.discovered ∧ u ∉ mapKeys st.failed ∧ u ≠ e.url) ∧
    (st.queue.map Entry.url ++ (l1 ++ l2).map Entry.url).Nodup := by
  have hperm : List.Perm (liveUrls st)
      (e.url :: (st.queue.map Entry.url ++ (l1 ++ l2).map Entry.url)) := by
    unfold liveUrls
    rw [hin]
    simp only [List.map_append, List.map_cons]
    exact perm_pull_middle _ _ _ _
  have hmem : ∀ u,
      u ∈ e.url :: (st.queue.map Entry.url ++ (l1 ++ l2).map Entry.url) →
        u ∈ liveUrls st := fun u hu => hperm.mem_iff.mpr hu
  have helive : e.url ∈ liveUrls st := hmem _ (List.mem_cons_self _ _)
  have hnd := hperm.nodup_iff.mp h.liveNodup
  obtain ⟨hnotin, hndrest⟩ := List.nodup_cons.mp hnd
  refine ⟨h.liveSeen _ helive, h.liveNotDisc _ helive, h.liveNotFail _ helive,
    ?_, hndrest⟩
  intro u hu
  have hul : u ∈ liveUrls st := hmem u (List.mem_cons_of_mem _ hu)
  exact ⟨h.liveSeen u hul, h.liveNotDisc u hul, h.liveNotFail u hul,
    fun he => hnotin (he ▸ hu)⟩

/-- Transferring the invariant along a permutation of the live URLs when the
record sets are untouched (the `start` and `retry` transitions). -/
theorem inv_transfer {s s2 : EngineState} (h : EngineInv s)
    (hperm : List.Perm (liveUrls s) (liveUrls s2))
    (hseen : s2.seen = s.seen) (hdisc : s2.discovered = s.discovered)
    (hfail : s2.failed = s.failed) : EngineInv s2 := by
  have hmem : ∀ u, u ∈ liveUrls s2 → u ∈ liveUrls s :=
    fun u hu => hperm.mem_iff.mpr hu
  refine ⟨?_, ?_, ?_, ?_, ?_, ?_, ?_⟩
  · intro u hu
    rw [hseen]
    exact h.liveSeen u (hmem u hu)
  · exact hperm.nodup_iff.mp h.liveNodup
  · intro u hu
    rw [hdisc]
    exact h.liveNotDisc u (hmem u hu)
  · intro u hu
    rw [hfail]
    exact h.liveNotFail u (hmem u hu)
  · intro u hu
    rw [hdisc] at hu
    rw [hseen]
    exact h.discSeen u hu
  · intro u hu
    rw [hfail] at hu
    rw [hseen]
    exact h.failSeen u hu
  · intro u hu
    rw [hdisc] at hu
    rw [hfail]
    exact h.disjointDF u hu

theorem inv_fail {st : EngineState} {e : Entry} {l1 l2 : List Entry} {msg : String}
    (h : EngineInv st) (hin : st.inflight = l1 ++ e :: l2) :
    EngineInv { st with
                inflight := l1 ++ l2,
                failed := (if looksLikeHtmlUrl e.url then mapSet st.failed e.url msg
                           else st.failed) } := by
  obtain ⟨hes, hed, hef, hrest, hnd⟩ := inv_remove h hin
  by_cases hh : looksLikeHtmlUrl e.url
  · rw [if_pos hh]
    refine ⟨?_, ?_, ?_, ?_, ?_, ?_, ?_⟩
    · intro u hu
      exact (hrest u hu).1
    · exact hnd
    · intro u hu
      exact (hrest u hu).2.1
    · intro u hu hk
      rcases mem_keys_mapSet hk with hk | hk
      · exact (hrest u hu).2.2.1 hk
      · exact (hrest u hu).2.2.2 hk
    · exact h.discSeen
    · intro u hu
      rcases mem_keys_mapSet hu with hu | hu
      · exact h.failSeen u hu
      · exact hu ▸ hes
    · intro u hu hk
      rcases mem_keys_mapSet hk with hk | hk
      · exact h.disjointDF u hu hk
      · exact hed (hk ▸ hu)
  · rw [if_neg hh]
    refine ⟨?_, ?_, ?_, ?_, ?_, ?_, ?_⟩
    · intro u hu
      exact (hrest u hu).1
    · exact hnd
    · intro u hu
      exact (hrest u hu).2.1
    · intro u hu
      exact (hrest u hu).2.2.1
    · exact h.discSeen
    · exact h.failSeen
    · exact h.disjointDF

theorem inv_success_mid {st : EngineState} {e : Entry} {l1 l2 : List Entry}
    {cond : Bool} (h : EngineInv st) (hin : st.inflight = l1 ++ e :: l2) :
    EngineInv { st with
                inflight := l1 ++ l2,
                discovered := (if cond then st.discovered ++ [e.url]
                               else st.discovered) } := by
  obtain ⟨hes, hed, hef, hrest, hnd⟩ := inv_remove h hin
  by_cases hc : cond = true
  · rw [if_pos hc]
    refine ⟨?_, ?_, ?_, ?_, ?_, ?_, ?_⟩
    · intro u hu
      exact (hrest u hu).1
    · exact hnd
    · intro u hu hk
      rcases List.mem_append.mp hk with hk | hk
      · exact (hrest u hu).2.1 hk
      · exact (hrest u hu).2.2.2 (List.mem_singleton.mp hk)
    · intro u hu
      exact (hrest u hu).2.2.1
    · intro u hu
      rcases List.mem_append.mp hu with hu | hu
      · exact h.discSeen u hu
      · exact (List.mem_singleton.mp hu) ▸ hes
    · exact h.failSeen
    · intro u hu hk
      rcases List.mem_append.mp hu with hu | hu
      · exact h.disjointDF u hu hk
      · exact hef ((List.mem_singleton.mp hu) ▸ hk)
  · rw [if_neg hc]
    refine ⟨?_, ?_, ?_, ?_, ?_, ?_, ?_⟩
    · intro u hu
      exact (hrest u hu).1
    · exact hnd
    · intro u hu
      exact (hrest u hu).2.1
    · intro u hu
      exact (hrest u hu).2.2.1
    · exact h.discSeen
    · exact h.failSeen
    · exact h.disjointDF

theorem foldl_enqueueE_inv {cfg : NormCfg} :
    ∀ (links : List Link) (st : EngineState), EngineInv st →
      EngineInv (List.foldl (enqueueE cfg) st links)
  | [], _, h => h
  | l :: ls, st, h => foldl_enqueueE_inv ls (enqueueE cfg st l) (enqueueE_inv h)

theorem stepE_inv {cfg : NormCfg} {s s2 : EngineState}
    (hstep : StepE cfg s s2) (h : EngineInv s) : EngineInv s2 := by
  cases hstep with
  | seed url => exact enqueueE_inv h
  | start e q hq =>
      refine inv_transfer h ?_ rfl rfl rfl
      unfold liveUrls
      rw [hq]
      dsimp only
      simp only [List.map_cons, List.map_append, List.map_nil]
      rw [← List.append_assoc]
      exact (List.perm_append_singleton _ _).symm
  | retry e l1 l2 hin =>
      refine inv_transfer h ?_ rfl rfl rfl
      unfold liveUrls
      rw [hin]
      dsimp only
      simp only [List.map_append, List.map_cons, List.map_nil]
      refine (perm_pull_middle _ _ _ _).trans ?_
      rw [List.append_assoc]
      exact (List.perm_middle).symm
  | fail e l1 l2 msg hin => exact inv_fail h hin
  | success e l1 l2 links isHtml isSit hin =>
      exact foldl_enqueueE_inv links _ (inv_success_mid h hin)

theorem reachableE_inv {cfg : NormCfg} {st : EngineState}
    (h : ReachableE cfg st) : EngineInv st := by
  induction h with
  | refl => exact engineInv_start
  | tail _ hstep ih => exact stepE_inv hstep ih

/-! ## Engine lemmas: monotone growth -/

theorem growsE_refl (s : EngineState) : GrowsE s s :=
  ⟨fun _ h => h, fun _ h => h, fun _ h => h, fun _ h => h⟩

theorem growsE_trans {a b c : EngineState} (h1 : GrowsE a b) (h2 : GrowsE b c) :
    GrowsE a c :=
  ⟨fun u hu => h2.1 u (h1.1 u hu), fun u hu => h2.2.1 u (h1.2.1 u hu),
   fun u hu => h2.2.2.1 u (h1.2.2.1 u hu), fun e he => h2.2.2.2 e (h1.2.2.2 e he)⟩

theorem enqueueE_grows (cfg : NormCfg) (st : EngineState) (l : Link) :
    GrowsE st (enqueueE cfg st l) :=
  ⟨fun _ h => enqueueE_seen_mono h,
   fun u hu => by rw [enqueueE_discovered]; exact hu,
   fun u hu => by rw [enqueueE_failed]; exact hu,
   fun _ h => enqueueE_referrers_mono h⟩

theorem foldl_enqueueE_grows (cfg : NormCfg) :
    ∀ (links : List Link) (st : EngineState),
      GrowsE st (List.foldl (enqueueE cfg) st links)
  | [], st => growsE_refl st
  | l :: ls, st => growsE_trans (enqueueE_grows cfg st l)
      (foldl_enqueueE_grows cfg ls (enqueueE cfg st l))

theorem stepE_grows {cfg : NormCfg} {s s2 : EngineState}
    (hstep : StepE cfg s s2) : GrowsE s s2 := by
  cases hstep with
  | seed url => exact enqueueE_grows cfg s _
  | start e q hq => exact ⟨fun _ h => h, fun _ h => h, fun _ h => h, fun _ h => h⟩
  | retry e l1 l2 hin => exact ⟨fun _ h => h, fun _ h => h, fun _ h => h, fun _ h => h⟩
  | fail e l1 l2 msg hin =>
      refine ⟨fun _ h => h, fun _ h => h, ?_, fun _ h => h⟩
      intro u hu
      dsimp only
      split
      · exact mem_keys_mapSet_mono hu
      · exact hu
  | success e l1 l2 links isHtml isSit hin =>
      refine growsE_trans ?_ (foldl_enqueueE_grows cfg links _)
      refine ⟨fun _ h => h, ?_, fun _ h => h, fun _ h => h⟩
      intro u hu
      dsimp only
      split
      · exact List.mem_append_left _ hu
      · exact hu

/-! ## Claim C4 -/

/-- C4: every reachable state of the crawl engine satisfies
`discovered ⊆ seen`, `failed.keys ⊆ seen` and
`discovered ∩ failed.keys = ∅`; and across every single engine step the
`seen`, `discovered`, `failed` and `referrers` records only grow (no element
or edge is ever removed). -/
theorem c4_engine_invariants :
    (∀ (cfg : NormCfg) (st : EngineState), ReachableE cfg st → coreInvariant st) ∧
    (∀ (cfg : NormCfg) (s s2 : EngineState), StepE cfg s s2 → GrowsE s s2) := by
  constructor
  · intro cfg st h
    have hinv := reachableE_inv h
    exact ⟨hinv.discSeen, hinv.failSeen, hinv.disjointDF⟩
  · intro cfg s s2 h
    exact stepE_grows h

theorem c4_engine_invariants_witness :
    coreInvariant
      (enqueueE ⟨false, none, false⟩ engineInit ⟨"http://ex/", false, none, false⟩) ∧
    GrowsE engineInit
      (enqueueE ⟨false, none, false⟩ engineInit ⟨"http://ex/", false, none, false⟩) :=
  ⟨c4_engine_invariants.1 ⟨false, none, false⟩ _
      (Relation.ReflTransGen.single (StepE.seed engineInit "http://ex/")),
    c4_engine_invariants.2 ⟨false, none, false⟩ _ _ (StepE.seed engineInit "http://ex/")⟩

/-! ## Claim C1 -/

/-- C1 counterexample: a reference coming from an additional (substituted)
host does NOT get `canFallbackToHttp = false`: `enqueue` sets
`canFallbackToHttp` to `wasHttp` unconditionally, so the entry created for
the http link `http://ex/x` with `cameFromAdditionalHost = true` carries
`canFallbackToHttp = true`.  Only `canFallbackToNoPort` is gated. -/
theorem c1_fallback_gating_cex :
    (enqueueE ⟨false, none, false⟩ engineInit
        ⟨"http://ex/x", true, none, false⟩).queue.map
      (fun e => (e.cameFromAdditionalHost, e.canFallbackToHttp, e.canFallbackToNoPort)) =
      [(true, true, false)] := by decide

/-- C1 (amended): when `enqueue` pushes a fresh frontier entry, the flags are
`canFallbackToHttp = wasHttp` (captured from the pre-normalization URL,
ungated) and `canFallbackToNoPort = wasPortless ∧ ¬cameFromAdditionalHost`
(only this flag is gated by the additional-host provenance). -/
theorem c1_fallback_flags_amended (cfg : NormCfg) (st : EngineState) (l : Link)
    (norm : String) (hn : normalizeUrl cfg l.url = some norm)
    (hseen : norm ∉ st.seen) :
    (enqueueE cfg st l).queue = st.queue ++
      [⟨norm, 0, wasHttpOf l.url,
        wasPortlessOf l.url && !l.cameFromAdditionalHost,
        l.cameFromAdditionalHost, l.isSitemap⟩] := by
  simp only [enqueueE, hn]
  rw [if_neg hseen]

theorem c1_fallback_flags_amended_witness :
    (enqueueE ⟨false, none, false⟩ engineInit
        ⟨"http://ex/x", true, none, false⟩).queue = engineInit.queue ++
      [⟨"http://ex/x", 0, wasHttpOf "http://ex/x",
        wasPortlessOf "http://ex/x" && !true, true, false⟩] :=
  c1_fallback_flags_amended ⟨false, none, false⟩ engineInit
    ⟨"http://ex/x", true, none, false⟩ "http://ex/x" (by decide) (by decide)

/-! ## Claim C8 -/

theorem enqueueE_edge_mem {cfg : NormCfg} {st : EngineState} {l : Link}
    {src norm : String} (hs : l.sourceUrl = some src)
    (hn : normalizeUrl cfg l.url = some norm) :
    (norm, src) ∈ (enqueueE cfg st l).referrers := by
  simp only [enqueueE, hn, hs]
  split
  · exact mem_addEdge_self _ _ _
  · exact mem_addEdge_self _ _ _

/-- C8: every `enqueue` call with a non-null source records the referrer edge
`normalized(url) → sourceUrl`, with no already-seen guard; consequently when
two pages A and B both link to C, after enqueueing both references (in either
order, the statement being symmetric in `lA`/`lB`) the referrer set contains
both edges. -/
theorem c8_referrer_edges :
    (∀ (cfg : NormCfg) (st : EngineState) (l : Link) (src norm : String),
      l.sourceUrl = some src → normalizeUrl cfg l.url = some norm →
      (norm, src) ∈ (enqueueE cfg st l).referrers) ∧
    (∀ (cfg : NormCfg) (st : EngineState) (lA lB : Link) (srcA srcB normC : String),
      lA.sourceUrl = some srcA → lB.sourceUrl = some srcB →
      normalizeUrl cfg lA.url = some normC → normalizeUrl cfg lB.url = some normC →
      ((normC, srcA) ∈ (enqueueE cfg (enqueueE cfg st lA) lB).referrers ∧
       (normC, srcB) ∈ (enqueueE cfg (enqueueE cfg st lA) lB).referrers)) := by
  refine ⟨fun cfg st l src norm hs hn => enqueueE_edge_mem hs hn, ?_⟩
  intro cfg st lA lB srcA srcB normC hsA hsB hnA hnB
  exact ⟨enqueueE_referrers_mono (enqueueE_edge_mem hsA hnA),
    enqueueE_edge_mem hsB hnB⟩

theorem c8_referrer_edges_witness :
    ("http://ex/c", "http://ex/a") ∈
      (enqueueE ⟨false, none, false⟩
        (enqueueE ⟨false, none, false⟩ engineInit
          ⟨"http://ex/c", false, some "http://ex/a", false⟩)
        ⟨"http://ex/c", false, some "http://ex/b", false⟩).referrers ∧
    ("http://ex/c", "http://ex/b") ∈
      (enqueueE ⟨false, none, false⟩
        (enqueueE ⟨false, none, false⟩ engineInit
          ⟨"http://ex/c", false, some "http://ex/a", false⟩)
        ⟨"http://ex/c", false, some "http://ex/b", false⟩).referrers :=
  c8_referrer_edges.2 ⟨false, none, false⟩ engineInit
    ⟨"http://ex/c", false, some "http://ex/a", false⟩
    ⟨"http://ex/c", false, some "http://ex/b", false⟩
    "http://ex/a" "http://ex/b" "http://ex/c" rfl rfl (by decide) (by decide)

/-! ## Claim C9 -/

theorem runSitemap_error (msg : String) (rest : List SaxEvent) :
    ∀ (evs : List SaxEvent) (st : SitemapSt),
      runSitemap st (evs ++ SaxEvent.errorEv msg :: rest) =
      runSitemap st (evs ++ [SaxEvent.endEv])
  | [], _ => rfl
  | SaxEvent.opentag n :: evs, st => runSitemap_error msg rest evs (openStep st n)
  | SaxEvent.textEv t :: evs, st => runSitemap_error msg rest evs (textStep st t)
  | SaxEvent.closetag n :: evs, st => runSitemap_error msg rest evs (closeStep st n)
  | SaxEvent.errorEv _ :: _, _ => rfl
  | SaxEvent.endEv :: _, _ => rfl

/-- C9: `parseSitemap` is total over event streams (it is a function into
result pairs, never a thrown error), a stream hitting a parse error resolves
immediately with exactly the URLs and sub-sitemaps accumulated so far, and a
stream with an error event yields the same result as if the document had
ended cleanly right before the error. -/
theorem c9_sitemap_error_recovery :
    ∀ (evs rest : List SaxEvent) (msg : String) (st : SitemapSt),
      runSitemap st (SaxEvent.errorEv msg :: rest) = (st.urls, st.sitemaps) ∧
      parseSitemapEvents (evs ++ SaxEvent.errorEv msg :: rest) =
        parseSitemapEvents (evs ++ [SaxEvent.endEv]) :=
  fun evs rest msg _ => ⟨rfl, runSitemap_error msg rest evs sitemapStart⟩

/-! ## Claim C2 -/

theorem startsWithChars_head {l p : List Char} {c : Char}
    (h : startsWithChars l (c :: p) = true) : ∃ l2, l = c :: l2 := by
  cases l with
  | nil => simp [startsWithChars] at h
  | cons a as =>
    simp only [startsWithChars, Bool.and_eq_true, decide_eq_true_eq] at h
    exact ⟨as, by rw [h.1]⟩

theorem startsWith_false_of_head {s p : String} {a b : Char} {l q : List Char}
    (hs : s.data = a :: l) (hp : p.data = b :: q) (hne : a ≠ b) :
    startsWithStr s p = false := by
  rw [startsWithStr, hs, hp]
  simp [startsWithChars, hne]

theorem phone_false_of_h {s : String} {l : List Char}
    (hs : s.data = 'h' :: l) : looksLikePhoneNumber s = false := by
  simp [looksLikePhoneNumber, hs, List.filter_cons, isWsChar, List.all_cons]

/-- C2 counterexample: the fixer-upper DOES fire on an href that already
parses as an absolute https URL.  With main host `ex`, base `https://ex/` and
href `https://ex/ex/foo` (absolute, parseable), `addLink` records the
unfixed→fixed mapping `https://ex/ex/foo → https://ex/foo` and emits the
synthesized repaired link: the code runs the path heuristic on every resolved
reference with no absolute-href guard. -/
theorem c2_fixer_absolute_cex :
    (parseUrl "https://ex/ex/foo".data).isSome = true ∧
    (addLink id (fun s _ => parseUrl s.data)
      ⟨⟨false, none, false⟩, "ex".data, [], "https".data⟩
      ⟨"https".data, "ex".data, none, ['/'], none, none⟩
      "https://ex/" "https://ex/ex/foo").fixerMap =
      [("https://ex/ex/foo", "https://ex/foo")] := by decide

/-- C2 (amended): for an href string starting with `http://` or `https://`
(in particular one that already parses as an absolute http/https URL), with
entity decoding the identity on it, that is not shaped like an e-mail
address, and that the resolver maps to `u`: `addLink` records the
unfixed→fixed mapping exactly when the fixer-upper path heuristic
(`fixerCheck`) matches `u` against the base directory and the host lists —
absolute hrefs are NOT exempt from the fixer-upper. -/
theorem c2_fixer_absolute_amended (decode : String → String)
    (resolve : String → Url → Option Url) (cfg : CrawlCfg) (base : Url)
    (baseUrl href : String) (u : Url)
    (hhttp : startsWithStr href "http://" = true ∨
      startsWithStr href "https://" = true)
    (hdec : decode href = href)
    (hmail : looksLikeEmail href = false)
    (hres : resolve href base = some u) :
    (addLink decode resolve cfg base baseUrl href).fixerMap =
      (match fixerCheck cfg base u with
       | FixerOutcome.fixed un f _ => [(un, f)]
       | _ => []) := by
  have hd : ∃ l2, href.data = 'h' :: l2 := by
    rcases hhttp with hh | hh
    · have hh2 : startsWithChars href.data ('h' :: "ttp://".data) = true := hh
      exact startsWithChars_head hh2
    · have hh2 : startsWithChars href.data ('h' :: "ttps://".data) = true := hh
      exact startsWithChars_head hh2
  obtain ⟨l2, hd⟩ := hd
  have hne : ¬(href.isEmpty = true) := by
    intro hemp
    rw [String.isEmpty_iff] at hemp
    rw [hemp] at hd
    simp at hd
  have hhash : startsWithStr href "#" = false :=
    startsWith_false_of_head hd rfl (by decide)
  have hjs : startsWithStr href "javascript:" = false :=
    startsWith_false_of_head hd rfl (by decide)
  have hmailto : startsWithStr href "mailto:" = false :=
    startsWith_false_of_head hd rfl (by decide)
  have htel : startsWithStr href "tel:" = false :=
    startsWith_false_of_head hd rfl (by decide)
  have hdata : startsWithStr href "data:" = false :=
    startsWith_false_of_head hd rfl (by decide)
  have hphone : looksLikePhoneNumber href = false := phone_false_of_h hd
  rw [addLink, if_neg hne]
  rw [if_neg (by rw [hhash]; exact Bool.false_ne_true)]
  rw [if_neg (by rw [hjs, hmailto, htel, hdata]; exact Bool.false_ne_true)]
  simp only [hdec, hmail, hphone, Bool.false_eq_true, if_false, hres]
  rcases hfc : fixerCheck cfg base u with _ | rem | _ | ⟨un, f, a⟩
  · dsimp only
    split
    · split <;> rfl
    · rfl
  · dsimp only
    split
    · split <;> rfl
    · rfl
  · rfl
  · rfl

theorem c2_fixer_absolute_amended_witness :
    (addLink id (fun s _ => parseUrl s.data)
      ⟨⟨false, none, false⟩, "ex".data, [], "https".data⟩
      ⟨"https".data, "ex".data, none, ['/'], none, none⟩
      "https://ex/" "https://ex/ex/foo").fixerMap =
      (match fixerCheck ⟨⟨false, none, false⟩, "ex".data, [], "https".data⟩
         ⟨"https".data, "ex".data, none, ['/'], none, none⟩
         ⟨"https".data, "ex".data, none, "/ex/foo".data, none, none⟩ with
       | FixerOutcome.fixed un f _ => [(un, f)]
       | _ => []) :=
  c2_fixer_absolute_amended id (fun s _ => parseUrl s.data)
    ⟨⟨false, none, false⟩, "ex".data, [], "https".data⟩
    ⟨"https".data, "ex".data, none, ['/'], none, none⟩
    "https://ex/" "https://ex/ex/foo"
    ⟨"https".data, "ex".data, none, "/ex/foo".data, none, none⟩
    (Or.inr (by decide)) rfl (by decide) (by decide)

end Katamap
